import Mathlib

/-!
# Verification of the figtree merge core

A shallow embedding of the figtree configuration-merging library
(`figtree.go`, `option.go` of the generic rewrite).  Go's reflected
values are modelled by a small universe of scalar values `SVal`; the
generic provenance-tracked wrapper `Option[T]` becomes `FigOption`;
yaml document nodes become explicit records carrying the literal token
and line/column coordinates.  The merge functions are translated
statement by statement from the Go source; fallible paths return
`Except String`.
-/

namespace Figtree

/-- Dynamic kinds of the scalar values modelled (the `reflect.Kind` of a
value; `null` stands for Go's untyped nil / invalid `reflect.Value`). -/
inductive SKind where
  | str
  | int
  | bool
  | null
deriving DecidableEq, Repr

/-- Scalar values: the reflected values flowing through the merge core.
`null` models a nil interface value (an invalid `reflect.Value`). -/
inductive SVal where
  | str (s : String)
  | int (n : Int)
  | bool (b : Bool)
  | null
deriving DecidableEq, Repr

/-- The dynamic kind of a scalar value. -/
def svalKind : SVal → SKind
  | .str _ => .str
  | .int _ => .int
  | .bool _ => .bool
  | .null => .null

/-- `reflect.Value.IsZero` / figtree `isZero` on a plain scalar:
the value equals the zero value of its type (an invalid value counts
as zero). -/
def svalIsZero : SVal → Bool
  | .str s => s = ""
  | .int n => n = 0
  | .bool b => b = false
  | .null => true

/-- The zero value of a scalar kind (`reflect.New(typ).Elem()`). -/
def zeroOf : SKind → SVal
  | .str => .str ""
  | .int => .int 0
  | .bool => .bool false
  | .null => .null

/-- `fmt.Sprint` on a scalar value (used by the scalar-to-string
coercion when no literal document token is available). -/
def goSprint : SVal → String
  | .str s => s
  | .int n => toString n
  | .bool b => if b then "true" else "false"
  | .null => "<nil>"

/-- `strconv.ParseBool`: the exact set of accepted literals. -/
def goParseBool (s : String) : Option Bool :=
  if s = "1" ∨ s = "t" ∨ s = "T" ∨ s = "TRUE" ∨ s = "true" ∨ s = "True" then some true
  else if s = "0" ∨ s = "f" ∨ s = "F" ∨ s = "FALSE" ∨ s = "false" ∨ s = "False" then some false
  else none

/-- `FileCoordinate` from option.go: the line/column of a yaml node. -/
structure FileCoordinate where
  line : Nat
  column : Nat
deriving DecidableEq, Repr

/-- `SourceLocation` from option.go: a symbolic source name plus an
optional file coordinate. -/
structure SourceLocation where
  name : String
  location : Option FileCoordinate
deriving DecidableEq, Repr

/-- `Option[T]` from option.go, with the value restricted to the scalar
universe: a provenance-tracked value. -/
structure FigOption where
  source : SourceLocation
  defined : Bool
  value : SVal
deriving DecidableEq, Repr

/-- `NewOption[T](dflt)`: defined, with the symbolic `default` source. -/
def NewOption (dflt : SVal) : FigOption :=
  { source := { name := "default", location := none }, defined := true, value := dflt }

/-- `Option[T].IsDefined`. -/
def FigOption.isDefined (o : FigOption) : Bool := o.defined

/-- `Option[T].IsDefault`: source-name equality with `default`. -/
def FigOption.isDefault (o : FigOption) : Bool := o.source.name = "default"

/-- figtree `isZeroOrDefaultOption`: an option is zero-or-default when
it is undefined or carries the `default` source. -/
def isZeroOrDefaultOption (o : FigOption) : Bool := !o.defined || o.isDefault

/-- Outcome of `Option[T].SetValue`: either the updated option, a
returned error, or a runtime panic raised inside the reflect package. -/
inductive SetValueOutcome where
  | ok (o : FigOption)
  | err
  | panic
deriving DecidableEq, Repr

/-- Whether an outcome is the error return. -/
def SetValueOutcome.isErrOutcome : SetValueOutcome → Bool
  | .err => true
  | _ => false

/-- `reflect.Value.CanConvert` restricted to the scalar kinds of this
model; within this universe only the identity conversion applies (the
numeric widenings of the full language relate kinds not modelled
here).  In `SetValue` the target type is computed from the *source*
value, so only the identity case is ever consulted. -/
def goCanConvert (src dst : SKind) : Bool := src = dst

/-- `(*Option[T]).SetValue(v)` translated from option.go:

* `v.(T)` succeeds: store the value and set `Defined`.
* otherwise the code builds `dst := reflect.ValueOf(o.Value)` (an
  unaddressable copy) and `dstType := reflect.ValueOf(v).Type()`
  (panicking when `v` is nil, since `Type` on the zero `Value`
  panics); `src.CanConvert(dstType)` converts `v` to its *own* type,
  which always succeeds, and then `dst.Set(...)` panics because `dst`
  is unaddressable.  The trailing `errors.Errorf` return is
  unreachable. -/
def OptionSetValue (t : SKind) (o : FigOption) (v : SVal) : SetValueOutcome :=
  if svalKind v = t ∧ v ≠ SVal.null then
    .ok { o with value := v, defined := true }
  else if v = SVal.null then
    .panic
  else if goCanConvert (svalKind v) (svalKind v) then
    .panic
  else
    .err

/-- `Merger` session state: the current source file name, the pending
`config.overwrite` directive names of the document being merged, and
the accumulated ignore set. -/
structure Merger where
  sourceFile : String
  overwrite : List String
  ignore : List String
deriving DecidableEq, Repr

/-- `NewMerger()` with no options. -/
def NewMerger : Merger := { sourceFile := "merge", overwrite := [], ignore := [] }

/-- `Merger.mustOverwrite`: linear scan of the pending overwrite names. -/
def Merger.mustOverwrite (m : Merger) (name : String) : Bool :=
  decide (name ∈ m.overwrite)

/-- `Merger.mustIgnore`: linear scan of the accumulated ignore names. -/
def Merger.mustIgnore (m : Merger) (name : String) : Bool :=
  decide (name ∈ m.ignore)

/-- The loop body of `Merger.advance`: append each overwrite name to
the ignore list unless already present. -/
def advanceIgnore (ig : List String) : List String → List String
  | [] => ig
  | ow :: rest => advanceIgnore (if ow ∈ ig then ig else ig ++ [ow]) rest

/-- `Merger.advance`: promote the pending overwrite names into the
ignore set and clear the overwrite list. -/
def Merger.advance (m : Merger) : Merger :=
  { m with ignore := advanceIgnore m.ignore m.overwrite, overwrite := [] }

/-- A scalar yaml node: the decoded value, the raw literal token
(`node.Value`) and the line/column of the node. -/
structure YScalar where
  val : SVal
  literal : String
  line : Nat
  column : Nat
deriving DecidableEq, Repr

/-- Coordinate extraction of `mergeSource.reflect`: a coordinate is
recorded when the node's line or column is nonzero. -/
def coordOf (n : YScalar) : Option FileCoordinate :=
  if n.line ≠ 0 ∨ n.column ≠ 0 then some ⟨n.line, n.column⟩ else none

/-- A scalar-shaped merge source: a yaml document node, a native
reflected value, or a native provenance-tracked option. -/
inductive SElem where
  | node (n : YScalar)
  | rawVal (v : SVal)
  | rawOpt (o : FigOption)
deriving DecidableEq, Repr

/-- The scalar that `assignValue` ends up assigning from: document
nodes decode to their value; native options are unwrapped through
`GetValue` by the recursion of `assignValue`. -/
def SElem.reflectVal : SElem → SVal
  | .node n => n.val
  | .rawVal v => v
  | .rawOpt o => o.value

/-- Whether `mergeSource.reflect` produces an invalid `reflect.Value`:
only nil scalars do (a native option reflects to its record). -/
def SElem.reflectInvalid : SElem → Bool
  | .node n => n.val = SVal.null
  | .rawVal v => v = SVal.null
  | .rawOpt _ => false

/-- The raw literal token, available only for document nodes. -/
def SElem.literalTok : SElem → Option String
  | .node n => some n.literal
  | _ => none

/-- The file coordinate carried to `SetSource`, available only for
document nodes. -/
def SElem.coord : SElem → Option FileCoordinate
  | .node n => coordOf n
  | _ => none

/-- The source location propagated when unwrapping a native option. -/
def SElem.srcLoc : SElem → Option SourceLocation
  | .rawOpt o => some o.source
  | _ => none

/-- `opts.srcIsDefault` after unwrapping a native option. -/
def SElem.srcIsDefault : SElem → Bool
  | .rawOpt o => o.isDefault
  | _ => false

/-- `mergeSource.isZero`: values read from a document are never zero;
native values use `isZero` (undefinedness for options). -/
def SElem.srcIsZero : SElem → Bool
  | .node _ => false
  | .rawVal v => svalIsZero v
  | .rawOpt o => !o.defined

/-- `isZeroOrDefaultOption` applied to the reflected source value
(false unless the source is a native option). -/
def SElem.zeroOrDefaultOpt : SElem → Bool
  | .rawOpt o => isZeroOrDefaultOption o
  | _ => false

/-- `isSame` between an option-valued destination field and the
reflected source value: `reflect.DeepEqual`, which can only hold when
the source reflects to an equal option record. -/
def isSameOpt (o : FigOption) : SElem → Bool
  | .rawOpt p => o = p
  | _ => false

/-- A destination slice/array element: a plain scalar or an option. -/
inductive DElem where
  | plain (v : SVal)
  | opt (o : FigOption)
deriving DecidableEq, Repr

/-- `GetValue` for option elements, identity otherwise (the value used
for dedup comparison). -/
def DElem.unwrap : DElem → SVal
  | .plain v => v
  | .opt o => o.value

/-- The element type of a typed destination slice or array. -/
inductive ElemType where
  | plain (k : SKind)
  | optOf (k : SKind)
deriving DecidableEq, Repr

/-- The scalar kind underlying an element type. -/
def ElemType.kind : ElemType → SKind
  | .plain k => k
  | .optOf k => k

/-- `reflect.New(elemType).Elem()`: the zero destination element. -/
def ElemType.zeroElem : ElemType → DElem
  | .plain k => .plain (zeroOf k)
  | .optOf k => .opt { source := { name := "", location := none }, defined := false, value := zeroOf k }

/-- Result of the scalar tail of `assignValue`. -/
inductive ScalarRes where
  | assigned (v : SVal)
  | noAssign
  | notAssignable
  | convErr
deriving DecidableEq, Repr

/-- The scalar tail of `assignValue`: the direct branch assigns when
the dynamic types match, guarded by
`Overwrite || isZero(dest) || (destIsDefault && !srcIsDefault)`;
otherwise the string-literal-to-bool coercion (a parse failure is a
hard error) and the scalar-to-string coercion (preferring the literal
document token) apply unconditionally; anything else is
`notAssignableError`. -/
def assignScalar (ov destIsDefault srcIsDefault : Bool) (cur v : SVal)
    (literal : Option String) : ScalarRes :=
  if svalKind v = svalKind cur then
    if ov || svalIsZero cur || (destIsDefault && !srcIsDefault) then .assigned v
    else .noAssign
  else if svalKind cur = SKind.bool then
    match v with
    | SVal.str s =>
      match goParseBool s with
      | some b => .assigned (SVal.bool b)
      | none => .convErr
    | _ => .notAssignable
  else if svalKind cur = SKind.str then
    .assigned (SVal.str (literal.getD (goSprint v)))
  else .notAssignable

/-- Result of `assignValue` on an option destination. -/
inductive AssignOutO where
  | setO (o : FigOption)
  | noop
  | notAssign
  | err
deriving DecidableEq, Repr

/-- The `SetSource` argument computed after a successful inner
assignment: the propagated source location (for a native option
source), with an empty name resolved to the merger's source file and
the location replaced by the document coordinate when available. -/
def resolvedSource (m : Merger) (e : SElem) : SourceLocation :=
  let base := e.srcLoc.getD { name := "", location := none }
  { name := if base.name = "" then m.sourceFile else base.name,
    location := match e.coord with
      | some c => some c
      | none => base.location }

/-- `m.assignValue(dest, src, opts)` for an option destination and a
scalar-shaped source: unwrap a native source option (propagating its
source location and default flag), recurse into the option's value,
and on success run `SetValue` followed by `SetSource` with the
resolved source location. -/
def assignOpt (m : Merger) (ov : Bool) (o : FigOption) (e : SElem) : AssignOutO :=
  let v := e.reflectVal
  if v = SVal.null then .noop
  else
    match assignScalar ov o.isDefault e.srcIsDefault o.value v e.literalTok with
    | .assigned w => .setO { source := resolvedSource m e, defined := true, value := w }
    | .noAssign => .noop
    | .notAssignable => .notAssign
    | .convErr => .err

/-- Result of `assignValue` on a destination element. -/
inductive AssignOut where
  | set (d : DElem)
  | noop
  | notAssign
  | err
deriving DecidableEq, Repr

/-- `m.assignValue(dest, src, opts)` for a scalar or option
destination element. -/
def assignElem (m : Merger) (ov : Bool) (d : DElem) (e : SElem) : AssignOut :=
  match d with
  | .plain cur =>
    let v := e.reflectVal
    if v = SVal.null then .noop
    else
      match assignScalar ov false e.srcIsDefault cur v e.literalTok with
      | .assigned w => .set (.plain w)
      | .noAssign => .noop
      | .notAssignable => .notAssign
      | .convErr => .err
  | .opt o =>
    match assignOpt m ov o e with
    | .setO o' => .set (.opt o')
    | .noop => .noop
    | .notAssign => .notAssign
    | .err => .err

/-- The skip test at the head of the slice-merge element loop of
`mergeArrays`: undefined option elements are dropped, and so are
elements whose compare value is an invalid/nil value. -/
def elemCompareValue : SElem → Option SVal
  | .node n => if n.val = SVal.null then none else some n.val
  | .rawVal v => if v = SVal.null then none else some v
  | .rawOpt o =>
    if o.defined = false then none
    else if o.value = SVal.null then none else some o.value

/-- The dedup conversion of `mergeArrays`: `assignValue` into a fresh
temporary of the destination element's dynamic value type (so the
direct branch assigns whenever the kinds match; assignment errors
mean the element is not considered a duplicate). -/
def convertScalar (k : SKind) (e : SElem) : Option SVal :=
  let v := e.reflectVal
  if v = SVal.null then none
  else if svalKind v = k then some v
  else if k = SKind.bool then
    match v with
    | SVal.str s => (goParseBool s).map SVal.bool
    | _ => none
  else if k = SKind.str then some (SVal.str (e.literalTok.getD (goSprint v)))
  else none

/-- Whether an incoming element is a duplicate of some accumulated
destination element: compare through `GetValue` for option elements,
skip nil-valued destination elements, and convert the incoming
element to the destination element's type before `DeepEqual`. -/
def isDup (cp : List DElem) (e : SElem) : Bool :=
  cp.any fun d =>
    match d.unwrap with
    | SVal.null => false
    | dv =>
      match convertScalar (svalKind dv) e with
      | some t => t = dv
      | none => false

/-- Construction of a fresh destination element from an incoming
element (`reflect.New(cp.Type().Elem()).Elem()` followed by
`assignValue` with the loop's overwrite flag); the element is
appended regardless of the assignment's changed flag, and assignment
errors abort the merge. -/
def appendElem (m : Merger) (ov : Bool) (et : ElemType) (e : SElem) : Except String DElem :=
  match assignElem m ov et.zeroElem e with
  | .set d => .ok d
  | .noop => .ok et.zeroElem
  | .notAssign => .error "not assignable"
  | .err => .error "assign error"

/-- The element loop of `mergeArrays` for slice destinations:
`skipDedup` was decided once from the initial copy; elements whose
compare value is invalid/nil are skipped; duplicates of accumulated
elements are skipped when dedup is on; everything else is appended. -/
def mergeArraysGo (m : Merger) (et : ElemType) (ov skipDedup : Bool) :
    List DElem → List SElem → Except String (List DElem)
  | cp, [] => .ok cp
  | cp, e :: rest =>
    match elemCompareValue e with
    | none => mergeArraysGo m et ov skipDedup cp rest
    | some _ =>
      if skipDedup = false ∧ isDup cp e = true then
        mergeArraysGo m et ov skipDedup cp rest
      else
        match appendElem m ov et e with
        | .ok d => mergeArraysGo m et ov skipDedup (cp ++ [d]) rest
        | .error s => .error s

/-- `mergeArrays` on a slice destination: overwrite starts from an
empty copy, otherwise from a copy of the destination; `skipDedup` is
set exactly when that starting copy is empty. -/
def mergeArraysSlice (m : Merger) (et : ElemType) (dst : List DElem) (src : List SElem)
    (ov : Bool) : Except String (List DElem) :=
  let cp := if ov then [] else dst
  mergeArraysGo m et ov (decide (cp.length = 0)) cp src

/-- `reflect.Value.IsZero` on a destination element (for an option
element the whole record must be zero). -/
def DElem.reflectIsZero : DElem → Bool
  | .plain v => svalIsZero v
  | .opt o =>
    o.source.name = "" && o.source.location = none && o.defined = false && svalIsZero o.value

/-- `isZeroOrDefaultOption` lifted to destination elements (false for
plain values). -/
def DElem.zeroOrDefaultOpt : DElem → Bool
  | .plain _ => false
  | .opt o => isZeroOrDefaultOption o

/-- The element loop of `mergeArrays` for fixed-size array
destinations: index-wise fill bounded by the destination length
(indices past the end are dropped), an index being assigned only when
it is a zero/default option, reflect-zero, or under overwrite;
assignment errors abort the merge. -/
def mergeArraysFixedGo (m : Merger) (ov : Bool) :
    Nat → List DElem → List SElem → Except String (List DElem)
  | _, dst, [] => .ok dst
  | ix, dst, e :: rest =>
    if h : dst.length ≤ ix then mergeArraysFixedGo m ov (ix + 1) dst rest
    else
      let cur := dst.get ⟨ix, by omega⟩
      if cur.zeroOrDefaultOpt || cur.reflectIsZero || ov then
        match assignElem m ov cur e with
        | .set d => mergeArraysFixedGo m ov (ix + 1) (dst.set ix d) rest
        | .noop => mergeArraysFixedGo m ov (ix + 1) dst rest
        | .notAssign => .error "not assignable"
        | .err => .error "assign error"
      else mergeArraysFixedGo m ov (ix + 1) dst rest

/-- `mergeArrays` on a fixed-size array destination. -/
def mergeArraysFixed (m : Merger) (dst : List DElem) (src : List SElem) (ov : Bool) :
    Except String (List DElem) :=
  mergeArraysFixedGo m ov 0 dst src

/-- A source document field value: a scalar node or a sequence. -/
inductive YVal where
  | scalar (e : SElem)
  | list (es : List SElem)
deriving DecidableEq, Repr

/-- A destination struct field: a provenance-tracked scalar or a typed
slice. -/
inductive DVal where
  | opt (o : FigOption)
  | list (et : ElemType) (xs : List DElem)
deriving DecidableEq, Repr

/-- The per-field body of `mergeStructs` (with `ov` already including
`overwrite || m.mustOverwrite(fieldName)`):

* an option destination computes
  `shouldAssign := (isZero(dst) && !src.isZero() ||
  (isZeroOrDefaultOption(dst) && !isZeroOrDefaultOption(val))) || ov`
  and, unless the destination `DeepEqual`s the reflected source,
  attempts `assignValue`; a `notAssignableError` (or any hard error)
  is returned because the option is a special struct with no
  structural fallback;
* an option destination facing a sequence source: the reflected
  source is a non-zero non-option slice value, so `shouldAssign`
  reduces to `isZeroOrDefaultOption(dst) || ov`, and `assignValue`
  always ends in `notAssignableError`;
* a slice destination: `assignValue` on a typed slice is always
  `notAssignableError`, which is swallowed, and the `reflect.Slice`
  case calls `mergeArrays`; for a non-list source `mergeArrays` is a
  no-op on an invalid value and an error otherwise. -/
def mergeOneField (m : Merger) (ov : Bool) : DVal → YVal → Except String DVal
  | .opt o, .scalar e =>
    let shouldAssign :=
      ((!o.defined && !e.srcIsZero) || (isZeroOrDefaultOption o && !e.zeroOrDefaultOpt)) || ov
    if shouldAssign && !isSameOpt o e then
      match assignOpt m ov o e with
      | .setO o' => .ok (.opt o')
      | .noop => .ok (.opt o)
      | .notAssign => .error "not assignable"
      | .err => .error "assign error"
    else .ok (.opt o)
  | .opt o, .list _ =>
    if (!o.defined || isZeroOrDefaultOption o) || ov then .error "not assignable"
    else .ok (.opt o)
  | .list et xs, .scalar e =>
    if e.reflectInvalid then .ok (.list et xs) else .error "not assignable"
  | .list et xs, .list es =>
    match mergeArraysSlice m et xs es ov with
    | .ok merged => .ok (.list et merged)
    | .error s => .error s

/-- A destination record field, keyed by its yaml field name. -/
abbrev DField := String × DVal

/-- A source document field, keyed by its yaml field name. -/
abbrev SrcField := String × YVal

/-- `populateYAMLMaps` lookup: the first destination field with the
given yaml name. -/
def lookupField : List DField → String → Option DVal
  | [], _ => none
  | (k, v) :: rest, n => if k = n then some v else lookupField rest n

/-- Write back a merged field value into the first destination field
with the given name. -/
def updateFirst (n : String) (d : DVal) : List DField → List DField
  | [] => []
  | (k, v) :: rest => if k = n then (k, d) :: rest else (k, v) :: updateFirst n d rest

/-- `mergeStructs`: iterate the source fields; names on the ignore
list are skipped entirely, names absent from the destination are
skipped, and matched fields are merged with
`overwrite || m.mustOverwrite(fieldName)`. -/
def mergeStructs (m : Merger) (ov : Bool) : List DField → List SrcField → Except String (List DField)
  | dst, [] => .ok dst
  | dst, (name, yv) :: rest =>
    if m.mustIgnore name then mergeStructs m ov dst rest
    else
      match lookupField dst name with
      | none => mergeStructs m ov dst rest
      | some d =>
        match mergeOneField m (ov || m.mustOverwrite name) d yv with
        | .ok d' => mergeStructs m ov (updateFirst name d' dst) rest
        | .error s => .error s

/-- One document of a merge sequence: its provenance name, whether it
is empty (`Config == nil || Config.IsZero()`), the parsed
`config.stop` value when the key is present, the `config.overwrite`
names, and its data fields. -/
structure MDoc where
  name : String
  isZero : Bool
  stopVal : Option Bool
  overwriteNames : List String
  fields : List SrcField
deriving DecidableEq, Repr

/-- `loadConfigSource` followed by the caller's `m.advance()`: set the
merger's source file, decode the document's `config` block into the
pending overwrite names, merge the document's fields, then promote
the overwrite names into the ignore set. -/
def processDoc (m : Merger) (dst : List DField) (d : MDoc) : Except String (List DField × Merger) :=
  let m1 : Merger := { m with sourceFile := d.name, overwrite := d.overwriteNames }
  match mergeStructs m1 false dst d.fields with
  | .ok dst' => .ok (dst', m1.advance)
  | .error s => .error s

/-- One step of the closure returned by `defaultFilterOut`: once a
previous document requested a stop every document is filtered out;
otherwise the current document's `config.stop` value (if present)
becomes the new state and the document itself is processed. -/
def filterOutStep (configStop : Bool) (d : MDoc) : Bool × Bool :=
  if configStop then (true, configStop)
  else
    match d.stopVal with
    | some b => (false, b)
    | none => (false, configStop)

/-- `LoadAllConfigSources`: skip empty documents, consult the filter,
merge the document and advance, threading the merger state; document
errors abort the sequence. -/
def LoadAllConfigSources (m : Merger) (configStop : Bool) (dst : List DField) :
    List MDoc → Except String (List DField × Merger)
  | [] => .ok (dst, m)
  | d :: rest =>
    if d.isZero then LoadAllConfigSources m configStop dst rest
    else
      let fs := filterOutStep configStop d
      if fs.1 then LoadAllConfigSources m fs.2 dst rest
      else
        match processDoc m dst d with
        | .ok (dst', m') => LoadAllConfigSources m' fs.2 dst' rest
        | .error s => .error s

/-- Sequential append of kept source elements through `appendElem`
(the no-dedup behaviour of the element loop). -/
def mapAppend (m : Merger) (ov : Bool) (et : ElemType) : List SElem → Except String (List DElem)
  | [] => .ok []
  | e :: rest =>
    match appendElem m ov et e with
    | .ok d =>
      match mapAppend m ov et rest with
      | .ok l => .ok (d :: l)
      | .error s => .error s
    | .error s => .error s

/-- Character classes of the camelcase splitter (ASCII fragment of the
unicode classification used by the Go library). -/
inductive CharClass where
  | lower
  | upper
  | digit
  | other
deriving DecidableEq, Repr

/-- Classification order of the camelcase splitter. -/
def classOf (c : Char) : CharClass :=
  if c.isLower then .lower
  else if c.isUpper then .upper
  else if c.isDigit then .digit
  else .other

/-- Group consecutive characters of one class into runs. -/
def groupRunsAux (cur : List Char) (lastClass : CharClass) : List Char → List (List Char)
  | [] => [cur.reverse]
  | c :: rest =>
    if classOf c = lastClass then groupRunsAux (c :: cur) lastClass rest
    else cur.reverse :: groupRunsAux [c] (classOf c) rest

/-- Split a character list into runs of one character class. -/
def groupRuns : List Char → List (List Char)
  | [] => []
  | c :: rest => groupRunsAux [c] (classOf c) rest

/-- The upper-to-lower adjustment pass of the camelcase splitter: an
upper-case run followed by a lower-case run donates its last
character to the lower-case run (`PDFL,oader` becomes `PDF,Loader`). -/
def adjustRunsAux (r1 : List Char) : List (List Char) → List (List Char)
  | [] => [r1]
  | r2 :: rest =>
    if (r1.head?.elim false Char.isUpper) && (r2.head?.elim false Char.isLower) then
      r1.dropLast :: adjustRunsAux (r1.getLast?.elim r2 (fun a => a :: r2)) rest
    else
      r1 :: adjustRunsAux r2 rest

/-- The adjustment pass applied to a whole run list. -/
def adjustRuns : List (List Char) → List (List Char)
  | [] => []
  | r :: rest => adjustRunsAux r rest

/-- `camelcase.Split`: split an identifier on case boundaries
(restricted to valid ASCII identifiers, on which the unicode and
ASCII classifications agree). -/
def camelcaseSplit (s : String) : List String :=
  ((adjustRuns (groupRuns s.toList)).filter (fun r => !r.isEmpty)).map (fun r => String.mk r)

/-- The word-separator test of `strings.Title`: ASCII alphanumerics
and underscore are not separators, everything else is. -/
def goIsSeparator (c : Char) : Bool :=
  !(c.isDigit || c.isLower || c.isUpper || c = '_')

/-- The rune loop of `strings.Title`: title-case every letter that
follows a separator (the previous character starts as a space). -/
def goTitleAux (prev : Char) : List Char → List Char
  | [] => []
  | c :: rest => (if goIsSeparator prev then c.toUpper else c) :: goTitleAux c rest

/-- `strings.Title` on the ASCII fragment. -/
def goTitle (s : String) : String := String.mk (goTitleAux ' ' s.toList)

/-- Membership in the `[0-9A-Za-z]+` word class. -/
def isAlnumASCII (c : Char) : Bool := c.isDigit || c.isLower || c.isUpper

/-- `regexp.FindAllString` for `[0-9A-Za-z]+`: the maximal
alphanumeric runs, in order. -/
def alnumRunsAux (acc : List Char) : List Char → List (List Char)
  | [] => if acc.isEmpty then [] else [acc.reverse]
  | c :: rest =>
    if isAlnumASCII c then alnumRunsAux (c :: acc) rest
    else if acc.isEmpty then alnumRunsAux [] rest
    else acc.reverse :: alnumRunsAux [] rest

/-- `strings.Join(words, "")`. -/
def concatAll : List String → String
  | [] => ""
  | s :: rest => s ++ concatAll rest

/-- figtree `camelCase`: title-case each alphanumeric word and join. -/
def camelCase (name : String) : String :=
  concatAll ((alnumRunsAux [] name.toList).map (fun w => goTitle (String.mk w)))

/-- `strings.Split` on a single-character separator. -/
def splitOnCharAux (sep : Char) (cur : List Char) : List Char → List (List Char)
  | [] => [cur.reverse]
  | c :: rest =>
    if c = sep then cur.reverse :: splitOnCharAux sep [] rest
    else splitOnCharAux sep (c :: cur) rest

/-- `strings.Split(s, sep)` for a one-character separator. -/
def splitOnChar (sep : Char) (s : String) : List String :=
  (splitOnCharAux sep [] s.toList).map (fun l => String.mk l)

/-- `strings.Join(parts, "-")`. -/
def joinDash : List String → String
  | [] => ""
  | [s] => s
  | s :: rest => s ++ "-" ++ joinDash rest

/-- `strings.ToLower` on the ASCII fragment. -/
def toLowerStr (s : String) : String := String.mk (s.toList.map Char.toLower)

/-- A reflected struct field: its Go identifier and the `figtree` and
`yaml` tags when present. -/
structure GoStructField where
  name : String
  figtreeTag : Option String
  yamlTag : Option String
deriving DecidableEq, Repr

/-- `strings.HasPrefix(part, "name=")` plus `strings.TrimPrefix`. -/
def namePartOf (part : String) : Option String :=
  match part.toList with
  | 'n' :: 'a' :: 'm' :: 'e' :: '=' :: rest => some (String.mk rest)
  | _ => none

/-- The `name=` rename part of a `figtree` tag, if any (the first
comma-separated part carrying the prefix wins). -/
def figtreeNamePart (tag : String) : Option String :=
  (splitOnChar ',' tag).findSome? namePartOf

/-- `yamlTagName`: the part of the `yaml` tag before the first comma,
unless empty or `-`. -/
def yamlTagNameModel : Option String → String
  | some tag =>
    match splitOnChar ',' tag with
    | p0 :: _ => if p0 ≠ "" ∧ p0 ≠ "-" then p0 else ""
    | [] => ""
  | none => ""

/-- `yamlFieldName`: the yaml tag name when present, otherwise the
identifier split on case boundaries, lower-cased and joined with
dashes (`FooBar` becomes `foo-bar`). -/
def yamlFieldNameModel (sf : GoStructField) : String :=
  let n := yamlTagNameModel sf.yamlTag
  if n ≠ "" then n
  else joinDash ((camelcaseSplit sf.name).map toLowerStr)

/-- `CanonicalFieldName`: the `name=` rename of the `figtree` tag when
present, otherwise `camelCase` of the yaml field name. -/
def CanonicalFieldNameModel (sf : GoStructField) : String :=
  match sf.figtreeTag with
  | some tag =>
    match figtreeNamePart tag with
    | some nm => nm
    | none => camelCase (yamlFieldNameModel sf)
  | none => camelCase (yamlFieldNameModel sf)

/-- The canonical struct-field name that `makeMergeStruct` gives a map
key (`field.Name = camelCase(key)`). -/
def mapKeyFieldName (key : String) : String := camelCase key

end Figtree

namespace Figtree

/-- C10: `NewOption[T](d)` returns an option with `Defined == true` and
source name `default`, so `IsDefined()` and `IsDefault()` both hold on
the fresh option. -/
theorem c10_new_option_default (d : SVal) :
    (NewOption d).isDefined = true ∧ (NewOption d).isDefault = true ∧
      (NewOption d).source.name = "default" ∧ (NewOption d).value = d := by
  refine ⟨rfl, ?_, rfl, rfl⟩
  simp [NewOption, FigOption.isDefault]

/-- C8: behaviour of `(*Option[T]).SetValue(v)` at the failing input.
A value of the right dynamic type is stored and `Defined` is set, but
a value of an incompatible dynamic type makes the code panic inside
`reflect.Value.Set` (the destination is an unaddressable copy and the
conversion target is mistakenly taken from the source value, so the
guard always passes); the error return is unreachable, contradicting
the claim that incompatible values are rejected by returning an
error. -/
theorem c8_setvalue_behavior :
    OptionSetValue SKind.int (NewOption (SVal.int 0)) (SVal.str "hello") = SetValueOutcome.panic ∧
      OptionSetValue SKind.int (NewOption (SVal.int 0)) (SVal.int 5) =
        SetValueOutcome.ok
          { source := { name := "default", location := none }, defined := true,
            value := SVal.int 5 } ∧
      ∀ (t : SKind) (o : FigOption) (v : SVal),
        (OptionSetValue t o v).isErrOutcome = false := by
  refine ⟨by decide, by decide, ?_⟩
  intro t o v
  unfold OptionSetValue
  split
  · rfl
  · split
    · rfl
    · split
      · rfl
      · rename_i h1 h2 h3
        simp [goCanConvert] at h3

/-- C9: `CanonicalFieldName` prefers the explicit `name=` rename of
the `figtree` tag; otherwise it derives the name from the yaml
serialized-name tag (via `camelCase`); otherwise it derives it from
the identifier split on case boundaries and lower-kebab-cased, so the
untagged field `FooBar` canonicalizes to the same name that
`makeMergeStruct` gives the map key `foo-bar`. -/
theorem c9_canonical_field_name :
    (∀ (sf : GoStructField) (tag nm : String),
        sf.figtreeTag = some tag → figtreeNamePart tag = some nm →
        CanonicalFieldNameModel sf = nm) ∧
    (∀ (sf : GoStructField) (tag : String),
        sf.figtreeTag = some tag → figtreeNamePart tag = none →
        CanonicalFieldNameModel sf = camelCase (yamlFieldNameModel sf)) ∧
    (∀ sf : GoStructField,
        sf.figtreeTag = none →
        CanonicalFieldNameModel sf = camelCase (yamlFieldNameModel sf)) ∧
    (∀ sf : GoStructField,
        sf.yamlTag = none →
        yamlFieldNameModel sf = joinDash ((camelcaseSplit sf.name).map toLowerStr)) ∧
    CanonicalFieldNameModel { name := "FooBar", figtreeTag := none, yamlTag := none } =
      mapKeyFieldName "foo-bar" := by
  refine ⟨?_, ?_, ?_, ?_, by decide⟩
  · intro sf tag nm h1 h2
    simp [CanonicalFieldNameModel, h1, h2]
  · intro sf tag h1 h2
    simp [CanonicalFieldNameModel, h1, h2]
  · intro sf h1
    simp [CanonicalFieldNameModel, h1]
  · intro sf h1
    simp [yamlFieldNameModel, h1, yamlTagNameModel]

/-- Witness for C9: the three branches at concrete fields. -/
theorem c9_canonical_field_name_witness :
    CanonicalFieldNameModel { name := "X", figtreeTag := some "name=MyName", yamlTag := none } =
        "MyName" ∧
    CanonicalFieldNameModel { name := "Str1", figtreeTag := some ",inline", yamlTag := some "str1,omitempty" } =
        camelCase (yamlFieldNameModel { name := "Str1", figtreeTag := some ",inline", yamlTag := some "str1,omitempty" }) ∧
    CanonicalFieldNameModel { name := "FooBar", figtreeTag := none, yamlTag := none } =
        camelCase (yamlFieldNameModel { name := "FooBar", figtreeTag := none, yamlTag := none }) ∧
    yamlFieldNameModel { name := "FooBar", figtreeTag := none, yamlTag := none } =
        joinDash ((camelcaseSplit "FooBar").map toLowerStr) :=
  ⟨c9_canonical_field_name.1 _ "name=MyName" "MyName" rfl (by decide),
   c9_canonical_field_name.2.1 _ ",inline" rfl (by decide),
   c9_canonical_field_name.2.2.1 _ rfl,
   c9_canonical_field_name.2.2.2.1 _ rfl⟩

theorem advanceIgnore_eq_append (ows ig : List String) :
    ∃ t, advanceIgnore ig ows = ig ++ t := by
  induction ows generalizing ig with
  | nil => exact ⟨[], by simp [advanceIgnore]⟩
  | cons ow rest ih =>
    by_cases h : ow ∈ ig
    · simpa [advanceIgnore, h] using ih ig
    · obtain ⟨t, ht⟩ := ih (ig ++ [ow])
      exact ⟨ow :: t, by simp [advanceIgnore, h, ht]⟩

theorem mem_advanceIgnore_left {a : String} (ows ig : List String) (h : a ∈ ig) :
    a ∈ advanceIgnore ig ows := by
  obtain ⟨t, ht⟩ := advanceIgnore_eq_append ows ig
  rw [ht]
  exact List.mem_append_left _ h

theorem mem_advanceIgnore {a : String} (ows ig : List String) (h : a ∈ ows) :
    a ∈ advanceIgnore ig ows := by
  induction ows generalizing ig with
  | nil => cases h
  | cons ow rest ih =>
    rcases List.mem_cons.mp h with rfl | h2
    · by_cases hm : a ∈ ig
      · simp only [advanceIgnore, if_pos hm]
        exact mem_advanceIgnore_left rest ig hm
      · simp only [advanceIgnore, if_neg hm]
        exact mem_advanceIgnore_left rest _ (by simp)
    · simp only [advanceIgnore]
      split
      · exact ih _ h2
      · exact ih _ h2

theorem advanceIgnore_nodup (ows ig : List String) (h : ig.Nodup) :
    (advanceIgnore ig ows).Nodup := by
  induction ows generalizing ig with
  | nil => simpa [advanceIgnore]
  | cons ow rest ih =>
    simp only [advanceIgnore]
    by_cases hm : ow ∈ ig
    · rw [if_pos hm]
      exact ih _ h
    · rw [if_neg hm]
      apply ih
      simp [List.nodup_append, h, hm]

theorem lookupField_updateFirst_self (l : List DField) (k : String) (d d' : DVal)
    (h : lookupField l k = some d) : lookupField (updateFirst k d' l) k = some d' := by
  induction l with
  | nil => simp [lookupField] at h
  | cons p rest ih =>
    obtain ⟨k1, v1⟩ := p
    by_cases hk : k1 = k
    · subst hk
      simp [updateFirst, lookupField]
    · simp only [lookupField, if_neg hk] at h
      simp only [updateFirst, if_neg hk, lookupField, if_neg hk]
      exact ih h

theorem lookupField_updateFirst_ne (l : List DField) (k k' : String) (d : DVal)
    (h : k' ≠ k) : lookupField (updateFirst k d l) k' = lookupField l k' := by
  induction l with
  | nil => rfl
  | cons p rest ih =>
    obtain ⟨k1, v1⟩ := p
    by_cases hk : k1 = k
    · subst hk
      simp only [updateFirst, if_pos rfl, lookupField]
      rw [if_neg (fun hc => h hc.symm), if_neg (fun hc => h hc.symm)]
    · simp only [updateFirst, if_neg hk, lookupField]
      by_cases hk' : k1 = k'
      · rw [if_pos hk', if_pos hk']
      · rw [if_neg hk', if_neg hk']
        exact ih

theorem updateFirst_keys (l : List DField) (k : String) (d : DVal) :
    (updateFirst k d l).map Prod.fst = l.map Prod.fst := by
  induction l with
  | nil => rfl
  | cons p rest ih =>
    obtain ⟨k1, v1⟩ := p
    by_cases hk : k1 = k
    · simp [updateFirst, hk]
    · simp [updateFirst, hk, ih]

theorem updateFirst_self_eq (l : List DField) (k : String) (d : DVal)
    (h : lookupField l k = some d) : updateFirst k d l = l := by
  induction l with
  | nil => rfl
  | cons p rest ih =>
    obtain ⟨k1, v1⟩ := p
    by_cases hk : k1 = k
    · subst hk
      have h' : v1 = d := by simpa [lookupField] using h
      simp [updateFirst, h']
    · simp only [lookupField, if_neg hk] at h
      simp [updateFirst, hk, ih h]

theorem lookupField_eq_none_iff (l : List DField) (k : String) :
    lookupField l k = none ↔ k ∉ l.map Prod.fst := by
  induction l with
  | nil => simp [lookupField]
  | cons p rest ih =>
    obtain ⟨k1, v1⟩ := p
    by_cases hk : k1 = k
    · subst hk
      simp [lookupField]
    · simp [lookupField, hk, ih, Ne.symm hk]

theorem mergeStructs_keys (m : Merger) (ov : Bool) (src : List SrcField) :
    ∀ (dst out : List DField), mergeStructs m ov dst src = .ok out →
      out.map Prod.fst = dst.map Prod.fst := by
  induction src with
  | nil =>
    intro dst out h
    simp only [mergeStructs, Except.ok.injEq] at h
    rw [h]
  | cons p rest ih =>
    obtain ⟨name, yv⟩ := p
    intro dst out h
    simp only [mergeStructs] at h
    split at h
    · exact ih dst out h
    · split at h
      · exact ih dst out h
      · split at h
        · rw [ih _ _ h, updateFirst_keys]
        · exact Except.noConfusion h

theorem mergeStructs_lookup_ignored (m : Merger) (ov : Bool) (k : String)
    (hk : m.mustIgnore k = true) (src : List SrcField) :
    ∀ (dst out : List DField), mergeStructs m ov dst src = .ok out →
      lookupField out k = lookupField dst k := by
  induction src with
  | nil =>
    intro dst out h
    simp only [mergeStructs, Except.ok.injEq] at h
    rw [h]
  | cons p rest ih =>
    obtain ⟨name, yv⟩ := p
    intro dst out h
    simp only [mergeStructs] at h
    split at h
    · exact ih dst out h
    · rename_i hig
      split at h
      · exact ih dst out h
      · split at h
        · have hne : k ≠ name := fun hc => hig (hc ▸ hk)
          rw [ih _ _ h, lookupField_updateFirst_ne _ _ _ _ hne]
        · exact Except.noConfusion h

theorem mergeStructs_lookup_notmem (m : Merger) (ov : Bool) (k : String) (src : List SrcField) :
    ∀ (dst out : List DField), k ∉ src.map Prod.fst → mergeStructs m ov dst src = .ok out →
      lookupField out k = lookupField dst k := by
  induction src with
  | nil =>
    intro dst out _ h
    simp only [mergeStructs, Except.ok.injEq] at h
    rw [h]
  | cons p rest ih =>
    obtain ⟨name, yv⟩ := p
    intro dst out hmem h
    have hne : k ≠ name := fun hc => hmem (by simp [hc])
    have hmem2 : k ∉ rest.map Prod.fst := fun hc => hmem (by simp [hc])
    simp only [mergeStructs] at h
    split at h
    · exact ih dst out hmem2 h
    · split at h
      · exact ih dst out hmem2 h
      · split at h
        · rw [ih _ _ hmem2 h, lookupField_updateFirst_ne _ _ _ _ hne]
        · exact Except.noConfusion h

theorem mergeStructs_at (m : Merger) (ov : Bool) (src : List SrcField) :
    ∀ (dst out : List DField) (k : String) (yv : YVal) (d : DVal),
      (src.map Prod.fst).Nodup → (k, yv) ∈ src → m.mustIgnore k = false →
      lookupField dst k = some d → mergeStructs m ov dst src = .ok out →
      ∃ d', mergeOneField m (ov || m.mustOverwrite k) d yv = .ok d' ∧
        lookupField out k = some d' := by
  induction src with
  | nil =>
    intro dst out k yv d _ hmem
    cases hmem
  | cons p rest ih =>
    obtain ⟨name, yv1⟩ := p
    intro dst out k yv d hnd hmem hig hl h
    have hnd2 : (rest.map Prod.fst).Nodup := by
      simpa using hnd.of_cons
    rcases List.mem_cons.mp hmem with heq | hmem2
    · injection heq with hk1 hyv
      subst hk1
      subst hyv
      simp only [mergeStructs] at h
      split at h
      · rename_i hig2
        rw [hig] at hig2
        exact absurd hig2 (by simp)
      · split at h
        · rename_i hnone
          rw [hl] at hnone
          exact Option.noConfusion hnone
        · rename_i d0 hsome
          rw [hl] at hsome
          injection hsome with hd
          subst hd
          split at h
          · rename_i d' hm
            refine ⟨d', hm, ?_⟩
            have hknotin : k ∉ rest.map Prod.fst := by
              simp only [List.map_cons, List.nodup_cons] at hnd
              exact hnd.1
            rw [mergeStructs_lookup_notmem m ov k rest _ _ hknotin h]
            exact lookupField_updateFirst_self dst _ _ d' hl
          · exact Except.noConfusion h
    · have hne : name ≠ k := by
        intro hc
        subst hc
        have hmm : name ∈ rest.map Prod.fst :=
          List.mem_map.mpr ⟨(name, yv), hmem2, rfl⟩
        simp only [List.map_cons, List.nodup_cons] at hnd
        exact hnd.1 hmm
      simp only [mergeStructs] at h
      split at h
      · exact ih dst out k yv d hnd2 hmem2 hig hl h
      · split at h
        · exact ih dst out k yv d hnd2 hmem2 hig hl h
        · rename_i d1 hl1
          split at h
          · rename_i d1' hm1
            have hl' : lookupField (updateFirst name d1' dst) k = some d :=
              (lookupField_updateFirst_ne dst name k d1' (Ne.symm hne)).trans hl
            exact ih _ out k yv d hnd2 hmem2 hig hl' h
          · exact Except.noConfusion h

/-- C4: after `advance()` every pending overwrite name is in the
ignore set and the pending list is empty; the ignore set grows
append-only and stays duplicate-free; and `mergeStructs` skips every
source field whose name is in the ignore set, leaving the destination
field untouched, so no later document can repopulate it. -/
theorem c4_ignore_invariants :
    (∀ (m : Merger) (n : String), n ∈ m.overwrite → n ∈ m.advance.ignore) ∧
    (∀ m : Merger, m.advance.overwrite = []) ∧
    (∀ m : Merger, ∃ t, m.advance.ignore = m.ignore ++ t) ∧
    (∀ m : Merger, m.ignore.Nodup → m.advance.ignore.Nodup) ∧
    (∀ (m : Merger) (ov : Bool) (dst out : List DField) (src : List SrcField) (k : String),
        m.mustIgnore k = true → mergeStructs m ov dst src = .ok out →
        lookupField out k = lookupField dst k) := by
  refine ⟨?_, ?_, ?_, ?_, ?_⟩
  · intro m n h
    exact mem_advanceIgnore m.overwrite m.ignore h
  · intro m
    rfl
  · intro m
    exact advanceIgnore_eq_append m.overwrite m.ignore
  · intro m h
    exact advanceIgnore_nodup m.overwrite m.ignore h
  · intro m ov dst out src k hk h
    exact mergeStructs_lookup_ignored m ov k hk src dst out h

/-- Witness for C4 at a concrete merger state and merge. -/
theorem c4_ignore_invariants_witness :
    "a" ∈ (Merger.advance { sourceFile := "f", overwrite := ["a"], ignore := ["b"] }).ignore ∧
    (Merger.advance { sourceFile := "f", overwrite := ["a"], ignore := ["b"] }).overwrite = [] ∧
    (∃ t, (Merger.advance { sourceFile := "f", overwrite := ["a"], ignore := ["b"] }).ignore =
        ["b"] ++ t) ∧
    (Merger.advance { sourceFile := "f", overwrite := ["a"], ignore := ["b"] }).ignore.Nodup ∧
    lookupField [("str1", DVal.opt (NewOption (SVal.str "x")))] "str1" =
      lookupField [("str1", DVal.opt (NewOption (SVal.str "x")))] "str1" :=
  ⟨c4_ignore_invariants.1 _ "a" (by decide),
   c4_ignore_invariants.2.1 _,
   c4_ignore_invariants.2.2.1 _,
   c4_ignore_invariants.2.2.2.1 _ (by decide),
   c4_ignore_invariants.2.2.2.2
     { sourceFile := "f", overwrite := [], ignore := ["str1"] } false
     [("str1", DVal.opt (NewOption (SVal.str "x")))]
     [("str1", DVal.opt (NewOption (SVal.str "x")))]
     [("str1", YVal.scalar (SElem.node { val := SVal.str "y", literal := "y", line := 1, column := 1 }))]
     "str1" (by decide) (by rfl)⟩

theorem loadAll_stopped (docs : List MDoc) :
    ∀ (m : Merger) (dst : List DField),
      LoadAllConfigSources m true dst docs = .ok (dst, m) := by
  induction docs with
  | nil =>
    intro m dst
    rfl
  | cons d rest ih =>
    intro m dst
    simp only [LoadAllConfigSources]
    split
    · exact ih m dst
    · simp only [filterOutStep, if_pos rfl]
      exact ih m dst

/-- C5: in `LoadAllConfigSources`, once a (non-empty) document sets
`config.stop: true`, no document after it in the sequence is ever
merged — the run over `pre ++ d :: post` equals the run over
`pre ++ [d]` — while the stopping document's own content is still
fully merged (a sequence beginning with the stopping document applies
exactly `loadConfigSource` plus `advance` for it). -/
theorem c5_stop_directive :
    (∀ (m : Merger) (cs : Bool) (dst : List DField) (pre post : List MDoc) (d : MDoc),
        d.isZero = false → d.stopVal = some true →
        LoadAllConfigSources m cs dst (pre ++ d :: post) =
          LoadAllConfigSources m cs dst (pre ++ [d])) ∧
    (∀ (m : Merger) (dst : List DField) (d : MDoc),
        d.isZero = false → d.stopVal = some true →
        LoadAllConfigSources m false dst [d] = processDoc m dst d) := by
  have part2 : ∀ (m : Merger) (dst : List DField) (d : MDoc),
      d.isZero = false → d.stopVal = some true →
      LoadAllConfigSources m false dst [d] = processDoc m dst d := by
    intro m dst d hz hs
    simp only [LoadAllConfigSources, hz, Bool.false_eq_true, if_false, filterOutStep, hs]
    cases hp : processDoc m dst d with
    | ok p =>
      obtain ⟨dst', m'⟩ := p
      simp [LoadAllConfigSources]
    | error s =>
      rfl
  refine ⟨?_, part2⟩
  intro m cs dst pre post d hz hs
  induction pre generalizing m cs dst with
  | nil =>
    simp only [List.nil_append]
    cases cs with
    | true =>
      rw [loadAll_stopped, loadAll_stopped]
    | false =>
      simp only [LoadAllConfigSources, hz, Bool.false_eq_true, if_false, filterOutStep, hs]
      cases hp : processDoc m dst d with
      | ok p =>
        obtain ⟨dst', m'⟩ := p
        simp [loadAll_stopped]
      | error s =>
        rfl
  | cons p pre' ih =>
    simp only [List.cons_append, LoadAllConfigSources]
    split
    · exact ih m cs dst
    · cases hf1 : (filterOutStep cs p).1 with
      | true =>
        exact ih m (filterOutStep cs p).2 dst
      | false =>
        cases hp : processDoc m dst p with
        | ok q =>
          obtain ⟨dst', m'⟩ := q
          exact ih m' (filterOutStep cs p).2 dst'
        | error s =>
          rfl

theorem assignOpt_node (m : Merger) (ov : Bool) (o : FigOption) (n : YScalar)
    (hkind : svalKind n.val = svalKind o.value) (hnn : n.val ≠ SVal.null)
    (hgate : (ov || svalIsZero o.value || o.isDefault) = true) :
    assignOpt m ov o (SElem.node n) =
      .setO { source := { name := m.sourceFile, location := coordOf n },
              defined := true, value := n.val } := by
  unfold assignOpt
  simp only [SElem.reflectVal]
  rw [if_neg hnn]
  unfold assignScalar
  rw [if_pos hkind]
  have hg : (ov || svalIsZero o.value || (o.isDefault && !(SElem.node n).srcIsDefault)) = true := by
    simp only [SElem.srcIsDefault]
    simpa using hgate
  rw [if_pos hg]
  cases hc : coordOf n <;>
    simp [resolvedSource, SElem.srcLoc, SElem.coord, hc]

theorem mergeOneField_node (m : Merger) (ov : Bool) (o : FigOption) (n : YScalar)
    (hkind : svalKind n.val = svalKind o.value)
    (hnull : svalKind o.value ≠ SKind.null)
    (hok : (o.defined = false ∧ svalIsZero o.value = true) ∨
      o.source.name = "default" ∨ ov = true) :
    mergeOneField m ov (.opt o) (.scalar (.node n)) =
      .ok (.opt { source := { name := m.sourceFile, location := coordOf n },
                  defined := true, value := n.val }) := by
  have hnn : n.val ≠ SVal.null := by
    intro hc
    rw [hc] at hkind
    exact hnull hkind.symm
  have hdflt : o.isDefault = decide (o.source.name = "default") := by
    simp [FigOption.isDefault]
  have hgate : (ov || svalIsZero o.value || o.isDefault) = true := by
    rcases hok with ⟨_, hz⟩ | hd | hv
    · simp [hz]
    · simp [FigOption.isDefault, hd]
    · simp [hv]
  have hshould : (((!o.defined && !(SElem.node n).srcIsZero) ||
      (isZeroOrDefaultOption o && !(SElem.node n).zeroOrDefaultOpt)) || ov) = true := by
    simp only [SElem.srcIsZero, SElem.zeroOrDefaultOpt, isZeroOrDefaultOption]
    rcases hok with ⟨hdef, _⟩ | hd | hv
    · simp [hdef]
    · simp [FigOption.isDefault, hd]
    · simp [hv]
  simp only [mergeOneField, hshould, isSameOpt, Bool.not_false, Bool.and_true, Bool.true_and,
    if_true]
  rw [assignOpt_node m ov o n hkind hnn hgate]

theorem mergeOneField_stable (m : Merger) (ov : Bool) (o : FigOption) (yv : YVal)
    (hdef : o.defined = true) (hnd : o.source.name ≠ "default") (hov : ov = false) :
    mergeOneField m ov (.opt o) yv = .ok (.opt o) := by
  have hzd : isZeroOrDefaultOption o = false := by
    simp [isZeroOrDefaultOption, hdef, FigOption.isDefault, hnd]
  cases yv with
  | scalar e =>
    simp [mergeOneField, hdef, hzd, hov]
  | list es =>
    simp [mergeOneField, hdef, hzd, hov]

theorem mergeStructs_stable_opt (m : Merger) (hovw : m.overwrite = []) (k : String)
    (o : FigOption) (hdef : o.defined = true) (hnd : o.source.name ≠ "default")
    (src : List SrcField) :
    ∀ (dst out : List DField), lookupField dst k = some (.opt o) →
      mergeStructs m false dst src = .ok out → lookupField out k = some (.opt o) := by
  induction src with
  | nil =>
    intro dst out hl h
    simp only [mergeStructs, Except.ok.injEq] at h
    rw [← h]
    exact hl
  | cons p rest ih =>
    obtain ⟨name, yv⟩ := p
    intro dst out hl h
    simp only [mergeStructs] at h
    split at h
    · exact ih dst out hl h
    · split at h
      · exact ih dst out hl h
      · rename_i d hl1
        split at h
        · rename_i d' hm
          by_cases hk : name = k
          · subst hk
            rw [hl] at hl1
            injection hl1 with hd
            have hov' : (false || m.mustOverwrite name) = false := by
              simp [Merger.mustOverwrite, hovw]
            rw [hov'] at hm
            rw [← hd] at hm
            rw [mergeOneField_stable m false o yv hdef hnd rfl] at hm
            injection hm with hd'
            have hupd : updateFirst name d' dst = dst := by
              rw [← hd']
              exact updateFirst_self_eq dst name (DVal.opt o) hl
            rw [hupd] at h
            exact ih dst out hl h
          · have hl' : lookupField (updateFirst name d' dst) k = some (DVal.opt o) :=
              (lookupField_updateFirst_ne dst name k d' (Ne.symm hk)).trans hl
            exact ih _ out hl' h
        · exact Except.noConfusion h

/-- C3: after a merge, a provenance-tracked scalar assigned from a
document node carries that document's `SourceLocation` (the merger's
source-file name plus the node's line/column); in particular a
destination option whose current source is `default` is overwritten
by a non-default incoming document value — its source location
replaced — even when the incoming value equals the current value. -/
theorem c3_provenance (m : Merger) (dst out : List DField) (src : List SrcField)
    (k : String) (o : FigOption) (n : YScalar)
    (hnd : (src.map Prod.fst).Nodup)
    (hmem : (k, YVal.scalar (SElem.node n)) ∈ src)
    (hig : m.mustIgnore k = false)
    (hl : lookupField dst k = some (DVal.opt o))
    (_hdef : o.defined = true)
    (hdflt : o.source.name = "default")
    (hkind : svalKind n.val = svalKind o.value)
    (hnull : svalKind o.value ≠ SKind.null)
    (h : mergeStructs m false dst src = .ok out) :
    lookupField out k =
      some (DVal.opt { source := { name := m.sourceFile, location := coordOf n },
                       defined := true, value := n.val }) := by
  obtain ⟨d', hm, hl'⟩ := mergeStructs_at m false src dst out k _ _ hnd hmem hig hl h
  rw [mergeOneField_node m _ o n hkind hnull (Or.inr (Or.inl hdflt))] at hm
  injection hm with hd
  rw [hl', ← hd]

/-- Witness for C3: a `default`-sourced option holding `"a"` receives
an incoming document value equal to `"a"`; the value is re-assigned
and the source location becomes the document's. -/
theorem c3_provenance_witness :
    lookupField
        [("f", DVal.opt { source := { name := "b.yml", location := some { line := 3, column := 4 } },
                          defined := true, value := SVal.str "a" })] "f" =
      some (DVal.opt { source := { name := "b.yml",
                                   location := coordOf { val := SVal.str "a", literal := "a", line := 3, column := 4 } },
                       defined := true, value := SVal.str "a" }) :=
  c3_provenance { sourceFile := "b.yml", overwrite := [], ignore := [] }
    [("f", DVal.opt (NewOption (SVal.str "a")))]
    [("f", DVal.opt { source := { name := "b.yml", location := some { line := 3, column := 4 } },
                      defined := true, value := SVal.str "a" })]
    [("f", YVal.scalar (SElem.node { val := SVal.str "a", literal := "a", line := 3, column := 4 }))]
    "f" (NewOption (SVal.str "a")) { val := SVal.str "a", literal := "a", line := 3, column := 4 }
    (by decide) (by simp) (by decide) (by rfl) (by rfl) (by rfl) (by decide) (by decide) (by rfl)

/-- C1 counterexample: with a fresh session, document A
(`str1: "a"` from `a.yml`) merged first and document B
(`str1: "b"` from `b.yml`) merged second, the field keeps A's value —
the second (per the claim, more specific) document does *not* win. -/
theorem c1_counterexample :
    (match mergeStructs { sourceFile := "a.yml", overwrite := [], ignore := [] } false
        [("str1", DVal.opt { source := { name := "", location := none },
                             defined := false, value := SVal.str "" })]
        [("str1", YVal.scalar (SElem.node { val := SVal.str "a", literal := "a", line := 1, column := 7 }))] with
      | .ok d1 => mergeStructs { sourceFile := "b.yml", overwrite := [], ignore := [] } false d1
          [("str1", YVal.scalar (SElem.node { val := SVal.str "b", literal := "b", line := 2, column := 7 }))]
      | .error s => .error s) =
      .ok [("str1", DVal.opt { source := { name := "a.yml", location := some { line := 1, column := 7 } },
                               defined := true, value := SVal.str "a" })] ∧
    SVal.str "a" ≠ SVal.str "b" := by
  exact ⟨by rfl, by decide⟩

/-- C1 amended: when two documents are merged A then B through one
Merger session (no overwrite directives), every field that document A
*defines* keeps A's value — the later document B cannot override a
defined, non-default-sourced field — while every field that A leaves
undefined-zero or default-sourced and that B defines ends up with B's
value and provenance.  (Specific-over-general precedence is obtained
by merging the most specific document first.) -/
theorem c1_amended_precedence :
    (∀ (mB : Merger) (out1 out2 : List DField) (B : List SrcField) (k : String) (o : FigOption),
        mB.overwrite = [] →
        lookupField out1 k = some (DVal.opt o) →
        o.defined = true → o.source.name ≠ "default" →
        mergeStructs mB false out1 B = .ok out2 →
        lookupField out2 k = some (DVal.opt o)) ∧
    (∀ (mA mB : Merger) (dst out1 out2 : List DField) (A B : List SrcField)
        (k : String) (o : FigOption) (nB : YScalar),
        k ∉ A.map Prod.fst →
        (B.map Prod.fst).Nodup →
        (k, YVal.scalar (SElem.node nB)) ∈ B →
        mB.mustIgnore k = false →
        lookupField dst k = some (DVal.opt o) →
        ((o.defined = false ∧ svalIsZero o.value = true) ∨ o.source.name = "default") →
        svalKind nB.val = svalKind o.value →
        svalKind o.value ≠ SKind.null →
        mergeStructs mA false dst A = .ok out1 →
        mergeStructs mB false out1 B = .ok out2 →
        lookupField out2 k =
          some (DVal.opt { source := { name := mB.sourceFile, location := coordOf nB },
                           defined := true, value := nB.val })) := by
  constructor
  · intro mB out1 out2 B k o hovw hl hdef hnd h
    exact mergeStructs_stable_opt mB hovw k o hdef hnd B out1 out2 hl h
  · intro mA mB dst out1 out2 A B k o nB hA hnd hmem hig hl hzd hkind hnull h1 h2
    have hl1 : lookupField out1 k = some (DVal.opt o) :=
      (mergeStructs_lookup_notmem mA false k A dst out1 hA h1).trans hl
    obtain ⟨d', hm, hl'⟩ := mergeStructs_at mB false B out1 out2 k _ _ hnd hmem hig hl1 h2
    rw [mergeOneField_node mB _ o nB hkind hnull (by
      rcases hzd with hc | hc
      · exact Or.inl hc
      · exact Or.inr (Or.inl hc))] at hm
    injection hm with hd
    rw [hl', ← hd]

/-- Witness for C1 amended: both parts at the concrete two-document
scenario of the counterexample. -/
theorem c1_amended_precedence_witness :
    lookupField
        [("str1", DVal.opt { source := { name := "a.yml", location := some { line := 1, column := 7 } },
                             defined := true, value := SVal.str "a" })] "str1" =
      some (DVal.opt { source := { name := "a.yml", location := some { line := 1, column := 7 } },
                       defined := true, value := SVal.str "a" }) ∧
    lookupField
        [("str1", DVal.opt { source := { name := "b.yml", location := some { line := 2, column := 7 } },
                             defined := true, value := SVal.str "b" })] "str1" =
      some (DVal.opt { source := { name := "b.yml",
                                   location := coordOf { val := SVal.str "b", literal := "b", line := 2, column := 7 } },
                       defined := true, value := SVal.str "b" }) := by
  constructor
  · exact c1_amended_precedence.1 { sourceFile := "b.yml", overwrite := [], ignore := [] }
      [("str1", DVal.opt { source := { name := "a.yml", location := some { line := 1, column := 7 } },
                           defined := true, value := SVal.str "a" })]
      [("str1", DVal.opt { source := { name := "a.yml", location := some { line := 1, column := 7 } },
                           defined := true, value := SVal.str "a" })]
      [("str1", YVal.scalar (SElem.node { val := SVal.str "b", literal := "b", line := 2, column := 7 }))]
      "str1" _ rfl (by rfl) (by rfl) (by decide) (by rfl)
  · exact c1_amended_precedence.2 { sourceFile := "a.yml", overwrite := [], ignore := [] }
      { sourceFile := "b.yml", overwrite := [], ignore := [] }
      [("str1", DVal.opt { source := { name := "", location := none },
                           defined := false, value := SVal.str "" })]
      [("str1", DVal.opt { source := { name := "", location := none },
                           defined := false, value := SVal.str "" })]
      [("str1", DVal.opt { source := { name := "b.yml", location := some { line := 2, column := 7 } },
                           defined := true, value := SVal.str "b" })]
      [("other", YVal.scalar (SElem.node { val := SVal.str "z", literal := "z", line := 1, column := 1 }))]
      [("str1", YVal.scalar (SElem.node { val := SVal.str "b", literal := "b", line := 2, column := 7 }))]
      "str1" _ _ (by decide) (by simp) (by simp) (by decide) (by rfl)
      (Or.inl ⟨rfl, by decide⟩) (by decide) (by decide) (by rfl) (by rfl)

/-- Witness for C5 at a concrete three-document sequence whose middle
document stops. -/
theorem c5_stop_directive_witness :
    LoadAllConfigSources NewMerger false
        [("str1", DVal.opt (NewOption (SVal.str "x")))]
        [{ name := "d3.yml", isZero := false, stopVal := none, overwriteNames := [],
            fields := [] },
          { name := "d2.yml", isZero := false, stopVal := some true, overwriteNames := [],
            fields := [] },
          { name := "d1.yml", isZero := false, stopVal := none, overwriteNames := [],
            fields := [] }] =
      LoadAllConfigSources NewMerger false
        [("str1", DVal.opt (NewOption (SVal.str "x")))]
        [{ name := "d3.yml", isZero := false, stopVal := none, overwriteNames := [],
            fields := [] },
          { name := "d2.yml", isZero := false, stopVal := some true, overwriteNames := [],
            fields := [] }] ∧
    LoadAllConfigSources NewMerger false
        [("str1", DVal.opt (NewOption (SVal.str "x")))]
        [{ name := "d2.yml", isZero := false, stopVal := some true, overwriteNames := [],
            fields := [] }] =
      processDoc NewMerger
        [("str1", DVal.opt (NewOption (SVal.str "x")))]
        { name := "d2.yml", isZero := false, stopVal := some true, overwriteNames := [],
          fields := [] } :=
  ⟨c5_stop_directive.1 NewMerger false _
      [{ name := "d3.yml", isZero := false, stopVal := none, overwriteNames := [], fields := [] }]
      [{ name := "d1.yml", isZero := false, stopVal := none, overwriteNames := [], fields := [] }]
      _ rfl rfl,
   c5_stop_directive.2 NewMerger _
      { name := "d2.yml", isZero := false, stopVal := some true, overwriteNames := [],
        fields := [] } rfl rfl⟩

theorem mergeArraysGo_prefix (m : Merger) (et : ElemType) (ov sd : Bool) :
    ∀ (src : List SElem) (cp out : List DElem),
      mergeArraysGo m et ov sd cp src = .ok out → ∃ t, out = cp ++ t := by
  intro src
  induction src with
  | nil =>
    intro cp out h
    simp only [mergeArraysGo, Except.ok.injEq] at h
    exact ⟨[], by simp [h]⟩
  | cons e rest ih =>
    intro cp out h
    simp only [mergeArraysGo] at h
    split at h
    · exact ih cp out h
    · split at h
      · exact ih cp out h
      · split at h
        · rename_i d happ
          obtain ⟨t, ht⟩ := ih _ out h
          exact ⟨d :: t, by simp [ht]⟩
        · exact Except.noConfusion h

theorem svalKind_eq_null_iff (v : SVal) : svalKind v = SKind.null ↔ v = SVal.null := by
  cases v <;> simp [svalKind]

theorem svalKind_zeroOf (k : SKind) : svalKind (zeroOf k) = k := by
  cases k <;> rfl

theorem svalIsZero_zeroOf (k : SKind) : svalIsZero (zeroOf k) = true := by
  cases k <;> simp [zeroOf, svalIsZero]

theorem reflectVal_ne_null_of_compare (e : SElem) (h : (elemCompareValue e).isSome) :
    e.reflectVal ≠ SVal.null := by
  cases e with
  | node n =>
    intro hc
    simp only [SElem.reflectVal] at hc
    simp [elemCompareValue, hc] at h
  | rawVal v =>
    intro hc
    simp only [SElem.reflectVal] at hc
    simp [elemCompareValue, hc] at h
  | rawOpt o =>
    intro hc
    simp only [SElem.reflectVal] at hc
    simp [elemCompareValue, hc] at h

theorem assignScalar_cases (ov did sid : Bool) (cur v : SVal) (lit : Option String) (w : SVal)
    (h : assignScalar ov did sid cur v lit = .assigned w) :
    (svalKind v = svalKind cur ∧ w = v) ∨
    (¬svalKind v = svalKind cur ∧ svalKind cur = SKind.bool ∧
      ∃ s b, v = SVal.str s ∧ goParseBool s = some b ∧ w = SVal.bool b) ∨
    (¬svalKind v = svalKind cur ∧ svalKind cur = SKind.str ∧
      w = SVal.str (lit.getD (goSprint v))) := by
  unfold assignScalar at h
  by_cases hk : svalKind v = svalKind cur
  · rw [if_pos hk] at h
    split at h
    · injection h with hw
      exact Or.inl ⟨hk, hw.symm⟩
    · exact ScalarRes.noConfusion h
  · rw [if_neg hk] at h
    by_cases hb : svalKind cur = SKind.bool
    · rw [if_pos hb] at h
      cases v with
      | str s =>
        cases hpb : goParseBool s with
        | some b =>
          simp only [hpb] at h
          injection h with hw
          exact Or.inr (Or.inl ⟨hk, hb, s, b, rfl, hpb, hw.symm⟩)
        | none =>
          simp only [hpb] at h
          exact ScalarRes.noConfusion h
      | null => exact ScalarRes.noConfusion h
      | int i => exact ScalarRes.noConfusion h
      | bool b => exact ScalarRes.noConfusion h
    · rw [if_neg hb] at h
      by_cases hstr : svalKind cur = SKind.str
      · rw [if_pos hstr] at h
        injection h with hw
        exact Or.inr (Or.inr ⟨hk, hstr, hw.symm⟩)
      · rw [if_neg hstr] at h
        exact ScalarRes.noConfusion h

theorem assignScalar_zero_ne_noAssign (ov did sid : Bool) (k : SKind) (v : SVal)
    (lit : Option String) : assignScalar ov did sid (zeroOf k) v lit ≠ .noAssign := by
  unfold assignScalar
  split
  · rw [if_pos (by simp [svalIsZero_zeroOf])]
    simp
  · split
    · cases v with
      | str s => cases hpb : goParseBool s <;> simp [hpb]
      | null => simp
      | int i => simp
      | bool b => simp
    · split
      · simp
      · simp

theorem convert_of_assigned_zero (e : SElem) (k : SKind) (ov did sid : Bool) (w : SVal)
    (hnn : e.reflectVal ≠ SVal.null)
    (h : assignScalar ov did sid (zeroOf k) e.reflectVal e.literalTok = .assigned w) :
    w ≠ SVal.null ∧ convertScalar (svalKind w) e = some w := by
  rcases assignScalar_cases _ _ _ _ _ _ _ h with ⟨hk, hw⟩ | ⟨hk, hcur, s, b, hv, hpb, hw⟩ |
      ⟨hk, hcur, hw⟩
  · subst hw
    refine ⟨hnn, ?_⟩
    simp [convertScalar, hnn]
  · subst hw
    refine ⟨by simp, ?_⟩
    rw [svalKind_zeroOf] at hk hcur
    have hkv : ¬svalKind e.reflectVal = SKind.bool := by
      rw [← hcur]
      exact hk
    simp [convertScalar, svalKind, hnn, hkv, hv, hpb]
  · subst hw
    refine ⟨by simp, ?_⟩
    rw [svalKind_zeroOf] at hk hcur
    have hkv : ¬svalKind e.reflectVal = SKind.str := by
      rw [← hcur]
      exact hk
    show convertScalar SKind.str e = some (SVal.str (e.literalTok.getD (goSprint e.reflectVal)))
    simp [convertScalar, hnn, hkv]

theorem appendElem_convert (m : Merger) (ov : Bool) (et : ElemType) (e : SElem) (d : DElem)
    (hc : (elemCompareValue e).isSome) (h : appendElem m ov et e = .ok d) :
    d.unwrap ≠ SVal.null ∧ convertScalar (svalKind d.unwrap) e = some d.unwrap := by
  have hnn : e.reflectVal ≠ SVal.null := reflectVal_ne_null_of_compare e hc
  unfold appendElem assignElem at h
  cases et with
  | plain k =>
    simp only [ElemType.zeroElem] at h
    rw [if_neg hnn] at h
    cases hres : assignScalar ov false e.srcIsDefault (zeroOf k) e.reflectVal e.literalTok with
    | assigned w =>
      simp only [hres] at h
      have hd : DElem.plain w = d := by
        injection h
      rw [← hd]
      have hcv := convert_of_assigned_zero e k ov false e.srcIsDefault w hnn hres
      simpa [DElem.unwrap] using hcv
    | noAssign => exact absurd hres (assignScalar_zero_ne_noAssign _ _ _ _ _ _)
    | notAssignable => simp [hres] at h
    | convErr => simp [hres] at h
  | optOf k =>
    simp only [ElemType.zeroElem] at h
    unfold assignOpt at h
    rw [if_neg hnn] at h
    have hvz : ({ source := { name := "", location := none }, defined := false,
                  value := zeroOf k } : FigOption).value = zeroOf k := rfl
    have hdz : ({ source := { name := "", location := none }, defined := false,
                  value := zeroOf k } : FigOption).isDefault = false := by
      simp [FigOption.isDefault]
    rw [hvz, hdz] at h
    cases hres : assignScalar ov false e.srcIsDefault (zeroOf k) e.reflectVal e.literalTok with
    | assigned w =>
      simp only [hres] at h
      injection h with h2
      rw [← h2]
      have hcv := convert_of_assigned_zero e k ov false e.srcIsDefault w hnn hres
      simpa [DElem.unwrap] using hcv
    | noAssign => exact absurd hres (assignScalar_zero_ne_noAssign _ _ _ _ _ _)
    | notAssignable => simp [hres] at h
    | convErr => simp [hres] at h

theorem isDup_append_left (cp l : List DElem) (e : SElem) (h : isDup cp e = true) :
    isDup (cp ++ l) e = true := by
  unfold isDup at h ⊢
  rw [List.any_append]
  simp [h]

theorem isDup_singleton_of_convert (d : DElem) (e : SElem) (hnn : d.unwrap ≠ SVal.null)
    (hconv : convertScalar (svalKind d.unwrap) e = some d.unwrap) : isDup [d] e = true := by
  unfold isDup
  simp only [List.any_cons, List.any_nil, Bool.or_false]
  cases hu : d.unwrap with
  | null => exact absurd hu hnn
  | str s =>
    rw [hu] at hconv
    simp [hu, hconv]
  | int i =>
    rw [hu] at hconv
    simp [hu, hconv]
  | bool b =>
    rw [hu] at hconv
    simp [hu, hconv]

theorem isDup_append_self (m : Merger) (ov : Bool) (et : ElemType) (cp : List DElem)
    (e : SElem) (d : DElem) (hc : (elemCompareValue e).isSome)
    (happ : appendElem m ov et e = .ok d) : isDup (cp ++ [d]) e = true := by
  obtain ⟨hnn, hconv⟩ := appendElem_convert m ov et e d hc happ
  have h1 := isDup_singleton_of_convert d e hnn hconv
  unfold isDup at h1 ⊢
  rw [List.any_append]
  simp [h1]

theorem mergeArraysGo_dup_all (m : Merger) (et : ElemType) (ov sd : Bool) :
    ∀ (src : List SElem) (cp out : List DElem),
      mergeArraysGo m et ov sd cp src = .ok out →
      ∀ e ∈ src, (elemCompareValue e).isSome → isDup out e = true := by
  intro src
  induction src with
  | nil =>
    intro cp out _ e he
    cases he
  | cons e0 rest ih =>
    intro cp out h e he hce
    simp only [mergeArraysGo] at h
    split at h
    · rename_i hnone
      rcases List.mem_cons.mp he with rfl | hmem
      · rw [hnone] at hce
        simp at hce
      · exact ih cp out h e hmem hce
    · rename_i v0 hsome
      split at h
      · rename_i hcond
        rcases List.mem_cons.mp he with rfl | hmem
        · obtain ⟨t, ht⟩ := mergeArraysGo_prefix m et ov sd rest cp out h
          rw [ht]
          exact isDup_append_left cp t e hcond.2
        · exact ih cp out h e hmem hce
      · split at h
        · rename_i d happ
          rcases List.mem_cons.mp he with rfl | hmem
          · obtain ⟨t, ht⟩ := mergeArraysGo_prefix m et ov sd rest _ out h
            rw [ht]
            exact isDup_append_left _ t _ (isDup_append_self m ov et cp e d hce happ)
          · exact ih _ out h e hmem hce
        · exact Except.noConfusion h

theorem mergeArraysGo_all_dup (m : Merger) (et : ElemType) (ov : Bool) :
    ∀ (src : List SElem) (cp : List DElem),
      (∀ e ∈ src, (elemCompareValue e).isSome → isDup cp e = true) →
      mergeArraysGo m et ov false cp src = .ok cp := by
  intro src
  induction src with
  | nil =>
    intro cp _
    rfl
  | cons e0 rest ih =>
    intro cp hall
    simp only [mergeArraysGo]
    cases hce : elemCompareValue e0 with
    | none =>
      exact ih cp fun e he hc => hall e (List.mem_cons_of_mem _ he) hc
    | some v0 =>
      have hdup : isDup cp e0 = true :=
        hall e0 (List.mem_cons_self _ _) (by simp [hce])
      rw [if_pos ⟨by trivial, hdup⟩]
      exact ih cp fun e he hc => hall e (List.mem_cons_of_mem _ he) hc

theorem mergeArraysGo_all_none (m : Merger) (et : ElemType) (ov sd : Bool) :
    ∀ (src : List SElem) (cp : List DElem), (∀ e ∈ src, elemCompareValue e = none) →
      mergeArraysGo m et ov sd cp src = .ok cp := by
  intro src
  induction src with
  | nil =>
    intro cp _
    rfl
  | cons e0 rest ih =>
    intro cp hall
    simp only [mergeArraysGo, hall e0 (List.mem_cons_self _ _)]
    exact ih cp fun e he => hall e (List.mem_cons_of_mem _ he)

theorem mergeArraysGo_ok_nil (m : Merger) (et : ElemType) (ov sd : Bool) :
    ∀ (src : List SElem) (cp : List DElem), mergeArraysGo m et ov sd cp src = .ok [] →
      cp = [] ∧ ∀ e ∈ src, elemCompareValue e = none := by
  intro src
  induction src with
  | nil =>
    intro cp h
    simp only [mergeArraysGo, Except.ok.injEq] at h
    exact ⟨h, by simp⟩
  | cons e0 rest ih =>
    intro cp h
    simp only [mergeArraysGo] at h
    split at h
    · rename_i hnone
      obtain ⟨hcp, hrest⟩ := ih cp h
      refine ⟨hcp, fun e he => ?_⟩
      rcases List.mem_cons.mp he with rfl | hm
      · exact hnone
      · exact hrest e hm
    · rename_i v0 hsome
      split at h
      · rename_i hcond
        obtain ⟨hcp, _⟩ := ih cp h
        subst hcp
        exact absurd hcond.2 (by simp [isDup])
      · split at h
        · rename_i d happ
          obtain ⟨hcp, _⟩ := ih _ h
          exact absurd hcp (by simp)
        · exact Except.noConfusion h

theorem mergeArraysGo_skipDedup (m : Merger) (et : ElemType) (ov : Bool) :
    ∀ (src : List SElem) (cp out : List DElem),
      mergeArraysGo m et ov true cp src = .ok out →
      ∃ l, mapAppend m ov et (src.filter (fun e => (elemCompareValue e).isSome)) = .ok l ∧
        out = cp ++ l := by
  intro src
  induction src with
  | nil =>
    intro cp out h
    simp only [mergeArraysGo, Except.ok.injEq] at h
    exact ⟨[], rfl, by simp [← h]⟩
  | cons e0 rest ih =>
    intro cp out h
    simp only [mergeArraysGo] at h
    split at h
    · rename_i hnone
      obtain ⟨l, hm, ho⟩ := ih cp out h
      refine ⟨l, ?_, ho⟩
      simpa [List.filter_cons, hnone] using hm
    · rename_i v0 hsome
      split at h
      · rename_i hcond
        exact absurd hcond.1 (by simp)
      · split at h
        · rename_i d happ
          obtain ⟨l, hm, ho⟩ := ih _ out h
          refine ⟨d :: l, ?_, ?_⟩
          · simp [List.filter_cons, hsome, mapAppend, happ, hm]
          · simp [ho]
        · exact Except.noConfusion h

theorem mergeArraysSlice_idempotent (m : Merger) (et : ElemType) (dst : List DElem)
    (src : List SElem) (ov : Bool) (out : List DElem)
    (h : mergeArraysSlice m et dst src ov = .ok out) :
    mergeArraysSlice m et out src ov = .ok out := by
  cases ov with
  | true =>
    simp only [mergeArraysSlice, if_true] at h ⊢
    exact h
  | false =>
    simp only [mergeArraysSlice, Bool.false_eq_true, if_false] at h ⊢
    by_cases hout : out = []
    · subst hout
      obtain ⟨hcp, hall⟩ := mergeArraysGo_ok_nil m et false _ src dst h
      subst hcp
      exact mergeArraysGo_all_none m et false _ src [] hall
    · have hsd : decide (out.length = 0) = false := by
        simp [List.length_eq_zero, hout]
      rw [hsd]
      exact mergeArraysGo_all_dup m et false src out
        fun e he hc => mergeArraysGo_dup_all m et false _ src dst out h e he hc

/-- C6 counterexample: a yaml `null` element of the source list is
*not* appended when merging into an empty destination slice, so "every
source element is appended" fails as stated. -/
theorem c6_counterexample :
    mergeArraysSlice { sourceFile := "a.yml", overwrite := [], ignore := [] }
        (ElemType.plain SKind.str) []
        [SElem.node { val := SVal.null, literal := "null", line := 1, column := 1 }] false =
      .ok [] ∧
    ([] : List DElem).length ≠
      [SElem.node { val := SVal.null, literal := "null", line := 1, column := 1 }].length :=
  ⟨rfl, by decide⟩

/-- C6 amended: merging a source list into an *empty* destination
slice appends every kept source element — every element that is
neither nil-valued nor an undefined option — in order and without any
deduplication (duplicates within the document are preserved); merging
into a non-empty accumulated destination skips every incoming element
that is value-equal (through `GetValue` for option elements, after
conversion to the destination element type) to an element already
accumulated; in particular merging `[a,b,a,a]` and then `[a,b,c]`
yields `[a,b,a,a,c]`. -/
theorem c6_amended_array_dedup :
    (∀ (m : Merger) (et : ElemType) (src : List SElem) (out : List DElem),
        mergeArraysSlice m et [] src false = .ok out →
        mapAppend m false et (src.filter (fun e => (elemCompareValue e).isSome)) = .ok out) ∧
    (∀ (m : Merger) (et : ElemType) (dst : List DElem) (src : List SElem),
        dst ≠ [] → (∀ e ∈ src, (elemCompareValue e).isSome → isDup dst e = true) →
        mergeArraysSlice m et dst src false = .ok dst) ∧
    (match mergeArraysSlice { sourceFile := "a.yml", overwrite := [], ignore := [] }
        (ElemType.optOf SKind.str) []
        [SElem.node { val := SVal.str "a", literal := "a", line := 1, column := 5 },
          SElem.node { val := SVal.str "b", literal := "b", line := 2, column := 5 },
          SElem.node { val := SVal.str "a", literal := "a", line := 3, column := 5 },
          SElem.node { val := SVal.str "a", literal := "a", line := 4, column := 5 }] false with
      | .ok out1 =>
        mergeArraysSlice { sourceFile := "b.yml", overwrite := [], ignore := [] }
          (ElemType.optOf SKind.str) out1
          [SElem.node { val := SVal.str "a", literal := "a", line := 1, column := 5 },
            SElem.node { val := SVal.str "b", literal := "b", line := 2, column := 5 },
            SElem.node { val := SVal.str "c", literal := "c", line := 3, column := 5 }] false
      | .error s => .error s) =
      .ok [DElem.opt { source := { name := "a.yml", location := some { line := 1, column := 5 } },
                       defined := true, value := SVal.str "a" },
           DElem.opt { source := { name := "a.yml", location := some { line := 2, column := 5 } },
                       defined := true, value := SVal.str "b" },
           DElem.opt { source := { name := "a.yml", location := some { line := 3, column := 5 } },
                       defined := true, value := SVal.str "a" },
           DElem.opt { source := { name := "a.yml", location := some { line := 4, column := 5 } },
                       defined := true, value := SVal.str "a" },
           DElem.opt { source := { name := "b.yml", location := some { line := 3, column := 5 } },
                       defined := true, value := SVal.str "c" }] := by
  refine ⟨?_, ?_, by rfl⟩
  · intro m et src out h
    simp only [mergeArraysSlice, Bool.false_eq_true, if_false] at h
    obtain ⟨l, hm, ho⟩ := mergeArraysGo_skipDedup m et false src [] out (by simpa using h)
    simpa [ho] using hm
  · intro m et dst src hne hall
    simp only [mergeArraysSlice, Bool.false_eq_true, if_false]
    have hsd : decide (dst.length = 0) = false := by
      simp [List.length_eq_zero, hne]
    rw [hsd]
    exact mergeArraysGo_all_dup m et false src dst hall

/-- Witness for C6 amended: both universal parts at concrete lists. -/
theorem c6_amended_array_dedup_witness :
    mapAppend { sourceFile := "a.yml", overwrite := [], ignore := [] } false
        (ElemType.plain SKind.str)
        ([SElem.node { val := SVal.str "a", literal := "a", line := 1, column := 1 }].filter
          (fun e => (elemCompareValue e).isSome)) =
      .ok [DElem.plain (SVal.str "a")] ∧
    mergeArraysSlice { sourceFile := "b.yml", overwrite := [], ignore := [] }
        (ElemType.plain SKind.str) [DElem.plain (SVal.str "a")]
        [SElem.node { val := SVal.str "a", literal := "a", line := 9, column := 9 }] false =
      .ok [DElem.plain (SVal.str "a")] :=
  ⟨c6_amended_array_dedup.1 { sourceFile := "a.yml", overwrite := [], ignore := [] }
      (ElemType.plain SKind.str)
      [SElem.node { val := SVal.str "a", literal := "a", line := 1, column := 1 }]
      [DElem.plain (SVal.str "a")] (by rfl),
   c6_amended_array_dedup.2.1 { sourceFile := "b.yml", overwrite := [], ignore := [] }
      (ElemType.plain SKind.str) [DElem.plain (SVal.str "a")]
      [SElem.node { val := SVal.str "a", literal := "a", line := 9, column := 9 }]
      (by decide) (by decide)⟩

theorem mergeArraysFixedGo_past (m : Merger) (ov : Bool) :
    ∀ (src : List SElem) (ix : Nat) (dst : List DElem), dst.length ≤ ix →
      mergeArraysFixedGo m ov ix dst src = .ok dst := by
  intro src
  induction src with
  | nil =>
    intro ix dst _
    rfl
  | cons e rest ih =>
    intro ix dst hle
    simp only [mergeArraysFixedGo]
    rw [dif_pos hle]
    exact ih (ix + 1) dst (Nat.le_succ_of_le hle)

theorem mergeArraysFixedGo_length (m : Merger) (ov : Bool) :
    ∀ (src : List SElem) (ix : Nat) (dst out : List DElem),
      mergeArraysFixedGo m ov ix dst src = .ok out → out.length = dst.length := by
  intro src
  induction src with
  | nil =>
    intro ix dst out h
    simp only [mergeArraysFixedGo, Except.ok.injEq] at h
    rw [← h]
  | cons e rest ih =>
    intro ix dst out h
    simp only [mergeArraysFixedGo] at h
    split at h
    · exact ih _ _ _ h
    · split at h
      · split at h
        · rename_i d hset
          rw [ih _ _ _ h, List.length_set]
        · exact ih _ _ _ h
        · exact Except.noConfusion h
        · exact Except.noConfusion h
      · exact ih _ _ _ h

theorem mergeArraysFixedGo_take (m : Merger) (ov : Bool) :
    ∀ (src : List SElem) (ix : Nat) (dst : List DElem),
      mergeArraysFixedGo m ov ix dst src =
        mergeArraysFixedGo m ov ix dst (src.take (dst.length - ix)) := by
  intro src
  induction src with
  | nil =>
    intro ix dst
    rw [List.take_nil]
  | cons e rest ih =>
    intro ix dst
    by_cases hle : dst.length ≤ ix
    · have h0 : dst.length - ix = 0 := Nat.sub_eq_zero_of_le hle
      rw [h0, List.take_zero]
      rw [mergeArraysFixedGo_past m ov _ ix dst hle,
        mergeArraysFixedGo_past m ov _ ix dst hle]
    · have h1 : dst.length - ix = (dst.length - (ix + 1)) + 1 := by omega
      rw [h1, List.take_succ_cons]
      simp only [mergeArraysFixedGo]
      rw [dif_neg hle, dif_neg hle]
      split
      · split
        · rename_i d hset
          rw [ih (ix + 1) (dst.set ix d)]
          simp [List.length_set]
        · exact ih (ix + 1) dst
        · rfl
        · rfl
      · exact ih (ix + 1) dst

theorem mergeArraysFixedGo_unfillable (m : Merger) :
    ∀ (src : List SElem) (ix : Nat) (dst out : List DElem) (j : Nat) (c : DElem),
      mergeArraysFixedGo m false ix dst src = .ok out →
      dst.get? j = some c → (c.zeroOrDefaultOpt || c.reflectIsZero) = false →
      out.get? j = some c := by
  intro src
  induction src with
  | nil =>
    intro ix dst out j c h hg _
    simp only [mergeArraysFixedGo, Except.ok.injEq] at h
    rw [← h]
    exact hg
  | cons e rest ih =>
    intro ix dst out j c h hg hc
    simp only [mergeArraysFixedGo] at h
    split at h
    · exact ih _ _ _ _ _ h hg hc
    · rename_i hlt
      split at h
      · rename_i hfill
        split at h
        · rename_i d hset
          by_cases hij : ix = j
          · subst hij
            have hgc : dst.get ⟨ix, Nat.lt_of_not_le hlt⟩ = c := by
              have h2 := List.get?_eq_get (Nat.lt_of_not_le hlt) (l := dst)
              rw [h2] at hg
              injection hg
            rw [hgc] at hfill
            rw [Bool.or_false] at hfill
            rw [hfill] at hc
            exact absurd hc (by simp)
          · have hg' : (dst.set ix d).get? j = some c := by
              rw [List.get?_set_ne d dst hij]
              exact hg
            exact ih _ _ _ _ _ h hg' hc
        · exact ih _ _ _ _ _ h hg hc
        · exact Except.noConfusion h
        · exact Except.noConfusion h
      · exact ih _ _ _ _ _ h hg hc

/-- C7: `mergeArrays` on a fixed-size array destination fills
index-wise only: the result keeps the destination's length, source
elements at indices past the destination length are dropped (the run
only depends on the first `N` source elements), an index whose
current element is neither zero/default nor under overwrite is left
untouched, and in particular a 2-slot destination merging a 3-element
source retains only indices 0 and 1. -/
theorem c7_fixed_array_truncation :
    (∀ (m : Merger) (dst : List DElem) (src : List SElem) (ov : Bool) (out : List DElem),
        mergeArraysFixed m dst src ov = .ok out → out.length = dst.length) ∧
    (∀ (m : Merger) (dst : List DElem) (src : List SElem) (ov : Bool),
        mergeArraysFixed m dst src ov = mergeArraysFixed m dst (src.take dst.length) ov) ∧
    (∀ (m : Merger) (dst : List DElem) (src : List SElem) (out : List DElem)
        (j : Nat) (c : DElem),
        mergeArraysFixed m dst src false = .ok out →
        dst.get? j = some c → (c.zeroOrDefaultOpt || c.reflectIsZero) = false →
        out.get? j = some c) ∧
    mergeArraysFixed { sourceFile := "a.yml", overwrite := [], ignore := [] }
        [DElem.plain (SVal.str ""), DElem.plain (SVal.str "")]
        [SElem.node { val := SVal.str "x", literal := "x", line := 1, column := 1 },
          SElem.node { val := SVal.str "y", literal := "y", line := 2, column := 1 },
          SElem.node { val := SVal.str "z", literal := "z", line := 3, column := 1 }] false =
      .ok [DElem.plain (SVal.str "x"), DElem.plain (SVal.str "y")] := by
  refine ⟨?_, ?_, ?_, by rfl⟩
  · intro m dst src ov out h
    exact mergeArraysFixedGo_length m ov src 0 dst out h
  · intro m dst src ov
    have h := mergeArraysFixedGo_take m ov src 0 dst
    simpa [mergeArraysFixed] using h
  · intro m dst src out j c h hg hc
    exact mergeArraysFixedGo_unfillable m src 0 dst out j c h hg hc

theorem assignOpt_stable (m : Merger) (ov : Bool) (o : FigOption) (e : SElem)
    (o' : FigOption) (h : assignOpt m ov o e = .setO o') :
    assignOpt m ov o' e = .setO o' ∨ assignOpt m ov o' e = .noop := by
  unfold assignOpt at h
  by_cases hnn : e.reflectVal = SVal.null
  · rw [if_pos hnn] at h
    exact AssignOutO.noConfusion h
  · rw [if_neg hnn] at h
    cases hres : assignScalar ov o.isDefault e.srcIsDefault o.value e.reflectVal e.literalTok with
    | assigned w =>
      simp only [hres] at h
      injection h with ho
      subst ho
      unfold assignOpt
      rw [if_neg hnn]
      have hval : ({ source := resolvedSource m e, defined := true,
                      value := w } : FigOption).value = w := rfl
      have hdef2 : ({ source := resolvedSource m e, defined := true,
                      value := w } : FigOption).isDefault =
          decide ((resolvedSource m e).name = "default") := rfl
      rw [hval, hdef2]
      rcases assignScalar_cases _ _ _ _ _ _ _ hres with ⟨hk, hw⟩ | ⟨hk, hb, s, b, hv, hpb, hw⟩ |
          ⟨hk, hstr, hw⟩
      · subst hw
        unfold assignScalar
        rw [if_pos rfl]
        split_ifs with hg
        · exact Or.inl rfl
        · exact Or.inr rfl
      · subst hw
        unfold assignScalar
        have hc1 : ¬svalKind e.reflectVal = svalKind (SVal.bool b) := by
          rw [hv]
          intro hc
          exact SKind.noConfusion hc
        rw [if_neg hc1, if_pos (show svalKind (SVal.bool b) = SKind.bool from rfl), hv]
        exact Or.inl (by simp [hpb])
      · subst hw
        unfold assignScalar
        have hc1 : ¬svalKind e.reflectVal =
            svalKind (SVal.str (e.literalTok.getD (goSprint e.reflectVal))) := by
          intro hc
          exact hk (hc.trans hstr.symm)
        rw [if_neg hc1]
        have hc2 : ¬svalKind (SVal.str (e.literalTok.getD (goSprint e.reflectVal))) =
            SKind.bool := by
          intro hc
          exact SKind.noConfusion hc
        rw [if_neg hc2,
          if_pos (show svalKind (SVal.str (e.literalTok.getD (goSprint e.reflectVal))) =
            SKind.str from rfl)]
        exact Or.inl rfl
    | noAssign => simp [hres] at h
    | notAssignable => simp [hres] at h
    | convErr => simp [hres] at h

theorem mergeOneField_scalar_idem (m : Merger) (ov : Bool) (o : FigOption) (e : SElem)
    (d' : DVal) (h : mergeOneField m ov (.opt o) (.scalar e) = .ok d') :
    mergeOneField m ov d' (.scalar e) = .ok d' := by
  have h0 := h
  simp only [mergeOneField] at h
  split at h
  · cases hr : assignOpt m ov o e with
    | setO o' =>
      simp only [hr] at h
      injection h with hd
      subst hd
      rcases assignOpt_stable m ov o e o' hr with h2 | h2
      · simp only [mergeOneField]
        split
        · simp [h2]
        · rfl
      · simp only [mergeOneField]
        split
        · simp [h2]
        · rfl
    | noop =>
      simp only [hr] at h
      injection h with hd
      subst hd
      exact h0
    | notAssign => simp [hr] at h
    | err => simp [hr] at h
  · injection h with hd
    subst hd
    exact h0

theorem mergeOneField_idem (m : Merger) (ov : Bool) (d : DVal) (yv : YVal) (d' : DVal)
    (h : mergeOneField m ov d yv = .ok d') : mergeOneField m ov d' yv = .ok d' := by
  have h0 := h
  cases d with
  | opt o =>
    cases yv with
    | scalar e => exact mergeOneField_scalar_idem m ov o e d' h
    | list es =>
      simp only [mergeOneField] at h
      split at h
      · exact Except.noConfusion h
      · injection h with hd
        subst hd
        exact h0
  | list et xs =>
    cases yv with
    | scalar e =>
      simp only [mergeOneField] at h
      split at h
      · injection h with hd
        subst hd
        exact h0
      · exact Except.noConfusion h
    | list es =>
      simp only [mergeOneField] at h
      split at h
      · rename_i merged hmerge
        injection h with hd
        subst hd
        simp only [mergeOneField]
        rw [mergeArraysSlice_idempotent m et xs es ov merged hmerge]
      · exact Except.noConfusion h

/-- C2: merging the same document a second time through the same
Merger session changes nothing: if `mergeStructs` maps `dst` to `out`
for a document with (yaml-unique) field names, then running
`mergeStructs` again on `out` with the same source yields `out`. -/
theorem c2_merge_idempotent (m : Merger) (ov : Bool) (src : List SrcField) :
    ∀ (dst out : List DField), (src.map Prod.fst).Nodup →
      mergeStructs m ov dst src = .ok out → mergeStructs m ov out src = .ok out := by
  induction src with
  | nil =>
    intro dst out _ h
    simp only [mergeStructs, Except.ok.injEq] at h
    simp [mergeStructs, h]
  | cons p rest ih =>
    obtain ⟨name, yv⟩ := p
    intro dst out hnd h
    have hnd2 : (rest.map Prod.fst).Nodup := by
      simpa using hnd.of_cons
    have hnotin : name ∉ rest.map Prod.fst := by
      simp only [List.map_cons, List.nodup_cons] at hnd
      exact hnd.1
    simp only [mergeStructs] at h ⊢
    split at h
    · rename_i hig
      rw [if_pos hig]
      exact ih dst out hnd2 h
    · rename_i hig
      rw [if_neg hig]
      split at h
      · rename_i hl
        have hkeys := mergeStructs_keys m ov rest dst out h
        have hlout : lookupField out name = none := by
          rw [lookupField_eq_none_iff] at hl ⊢
          rw [hkeys]
          exact hl
        simp only [hlout]
        exact ih dst out hnd2 h
      · rename_i d hl
        split at h
        · rename_i d' hm
          have hlout : lookupField out name = some d' := by
            rw [mergeStructs_lookup_notmem m ov name rest _ _ hnotin h]
            exact lookupField_updateFirst_self dst name d d' hl
          simp only [hlout, mergeOneField_idem m _ d yv d' hm]
          have hupd : updateFirst name d' out = out :=
            updateFirst_self_eq out name d' hlout
          rw [hupd]
          exact ih _ out hnd2 h
        · exact Except.noConfusion h

/-- Witness for C2 at a concrete destination and document containing
a provenance-tracked scalar and a slice. -/
theorem c2_merge_idempotent_witness :
    mergeStructs { sourceFile := "a.yml", overwrite := [], ignore := [] } false
        [("arr", DVal.list (ElemType.optOf SKind.str)
            [DElem.opt { source := { name := "a.yml", location := some { line := 1, column := 5 } },
                         defined := true, value := SVal.str "a" },
             DElem.opt { source := { name := "a.yml", location := some { line := 2, column := 5 } },
                         defined := true, value := SVal.str "b" }]),
         ("s", DVal.opt { source := { name := "a.yml", location := some { line := 9, column := 9 } },
                          defined := true, value := SVal.str "x" })]
        [("arr", YVal.list [SElem.node { val := SVal.str "a", literal := "a", line := 1, column := 5 },
            SElem.node { val := SVal.str "b", literal := "b", line := 2, column := 5 }]),
         ("s", YVal.scalar (SElem.node { val := SVal.str "x", literal := "x", line := 9, column := 9 }))] =
      .ok [("arr", DVal.list (ElemType.optOf SKind.str)
            [DElem.opt { source := { name := "a.yml", location := some { line := 1, column := 5 } },
                         defined := true, value := SVal.str "a" },
             DElem.opt { source := { name := "a.yml", location := some { line := 2, column := 5 } },
                         defined := true, value := SVal.str "b" }]),
           ("s", DVal.opt { source := { name := "a.yml", location := some { line := 9, column := 9 } },
                            defined := true, value := SVal.str "x" })] :=
  c2_merge_idempotent { sourceFile := "a.yml", overwrite := [], ignore := [] } false
    [("arr", YVal.list [SElem.node { val := SVal.str "a", literal := "a", line := 1, column := 5 },
        SElem.node { val := SVal.str "b", literal := "b", line := 2, column := 5 }]),
     ("s", YVal.scalar (SElem.node { val := SVal.str "x", literal := "x", line := 9, column := 9 }))]
    [("arr", DVal.list (ElemType.optOf SKind.str) []),
     ("s", DVal.opt { source := { name := "", location := none },
                      defined := false, value := SVal.str "" })]
    [("arr", DVal.list (ElemType.optOf SKind.str)
        [DElem.opt { source := { name := "a.yml", location := some { line := 1, column := 5 } },
                     defined := true, value := SVal.str "a" },
         DElem.opt { source := { name := "a.yml", location := some { line := 2, column := 5 } },
                     defined := true, value := SVal.str "b" }]),
     ("s", DVal.opt { source := { name := "a.yml", location := some { line := 9, column := 9 } },
                      defined := true, value := SVal.str "x" })]
    (by decide) (by rfl)

/-- Witness for C7: the universal parts at the concrete 2-slot
example. -/
theorem c7_fixed_array_truncation_witness :
    ([DElem.plain (SVal.str "x"), DElem.plain (SVal.str "y")] : List DElem).length =
      ([DElem.plain (SVal.str ""), DElem.plain (SVal.str "")] : List DElem).length ∧
    mergeArraysFixed { sourceFile := "a.yml", overwrite := [], ignore := [] }
        [DElem.plain (SVal.str "k")]
        [SElem.node { val := SVal.str "x", literal := "x", line := 1, column := 1 }] false =
      mergeArraysFixed { sourceFile := "a.yml", overwrite := [], ignore := [] }
        [DElem.plain (SVal.str "k")]
        ([SElem.node { val := SVal.str "x", literal := "x", line := 1, column := 1 }].take 1)
        false ∧
    ([DElem.plain (SVal.str "k")] : List DElem).get? 0 = some (DElem.plain (SVal.str "k")) := by
  refine ⟨?_, ?_, ?_⟩
  · exact c7_fixed_array_truncation.1 { sourceFile := "a.yml", overwrite := [], ignore := [] }
      [DElem.plain (SVal.str ""), DElem.plain (SVal.str "")]
      [SElem.node { val := SVal.str "x", literal := "x", line := 1, column := 1 },
        SElem.node { val := SVal.str "y", literal := "y", line := 2, column := 1 },
        SElem.node { val := SVal.str "z", literal := "z", line := 3, column := 1 }] false
      [DElem.plain (SVal.str "x"), DElem.plain (SVal.str "y")] (by rfl)
  · exact c7_fixed_array_truncation.2.1 { sourceFile := "a.yml", overwrite := [], ignore := [] }
      [DElem.plain (SVal.str "k")]
      [SElem.node { val := SVal.str "x", literal := "x", line := 1, column := 1 }] false
  · exact c7_fixed_array_truncation.2.2.1 { sourceFile := "a.yml", overwrite := [], ignore := [] }
      [DElem.plain (SVal.str "k")]
      [SElem.node { val := SVal.str "x", literal := "x", line := 1, column := 1 }]
      [DElem.plain (SVal.str "k")] 0 (DElem.plain (SVal.str "k")) (by rfl) (by rfl) (by decide)

end Figtree
